import Mathlib

/-!
Verification of the opactx transform pipeline engine and schema DSL compiler.

The definitions below are a shallow embedding of the Python source in
`src/opactx/transforms/builtin.py` and `src/opactx/schema/dsl.py`.
JSON-compatible values are modelled by the inductive type `Json`
(Python `dict`s become insertion-ordered association lists; Python
`float`s are modelled as rationals).  Python functions that raise
`ValueError` become functions into `Except String _`.  Handlers that
mutate the context dict in place inside a rule loop and may raise
mid-loop return a `TRes` carrying, on error, the state of the mutated
tree at the moment of the raise (this models what the caller's dict
object looks like after the exception propagates).

Python string primitives (`strip`, `split`, `startswith`, `lower`,
concatenation) are modelled by structurally recursive functions over
`List Char` so that every definition evaluates inside the kernel.
-/

namespace Opactx

/-! ### String primitives (models of the Python `str` methods used) -/

/-- Python `str.strip()`: drop whitespace from both ends. -/
def trimChars (cs : List Char) : List Char :=
  ((cs.dropWhile Char.isWhitespace).reverse.dropWhile Char.isWhitespace).reverse

/-- Python `str.strip()` at the `String` level. -/
def pyStrip (s : String) : String := ⟨trimChars s.data⟩

/-- Python `str.split(sep)` for a one-character separator: always returns at
least one (possibly empty) part; adjacent separators yield empty parts. -/
def splitOnChar (sep : Char) : List Char → List (List Char)
  | [] => [[]]
  | c :: rest =>
    let r := splitOnChar sep rest
    if c = sep then [] :: r
    else
      match r with
      | h :: t => (c :: h) :: t
      | [] => [[c]]

/-- Python `sep.join(parts)`. -/
def joinWith (sep : List Char) : List (List Char) → List Char
  | [] => []
  | [x] => x
  | x :: rest => x ++ sep ++ joinWith sep rest

/-- Python `str.lower()` (ASCII case folding, as used on option strings). -/
def pyLower (s : String) : String := ⟨s.data.map Char.toLower⟩

/-! ### JSON data model -/

/-- JSON-compatible values.  Python `dict`s are insertion-ordered maps,
modelled as association lists; Python `int` and `float` are kept distinct
(as in the source, where `isinstance` checks distinguish them, and `bool`
is checked before the numeric types); floats are modelled as rationals. -/
inductive Json where
  | null : Json
  | bool (b : Bool) : Json
  | int (n : Int) : Json
  | float (q : ℚ) : Json
  | str (s : String) : Json
  | arr (xs : List Json) : Json
  | obj (kvs : List (String × Json)) : Json

/-- A context tree root: Python `dict[str, Any]`. -/
abbrev Ctx := List (String × Json)

/-- Python `d.get(k)` on an insertion-ordered dict. -/
def dictGet (kvs : Ctx) (k : String) : Option Json :=
  match kvs with
  | [] => none
  | (k', v) :: rest => if k' = k then some v else dictGet rest k

/-- Python `d[k] = v`: replaces in place when the key exists (keeping its
position), appends otherwise. -/
def dictSet (kvs : Ctx) (k : String) (v : Json) : Ctx :=
  match kvs with
  | [] => [(k, v)]
  | (k', v') :: rest => if k' = k then (k', v) :: rest else (k', v') :: dictSet rest k v

/-- Python `d.pop(k)` (for a present key): removes the binding. -/
def dictRemove (kvs : Ctx) (k : String) : Ctx :=
  match kvs with
  | [] => []
  | (k', v') :: rest => if k' = k then rest else (k', v') :: dictRemove rest k

/-! ### Path addressing (`_parse_context_path` and friends) -/

/-- `_format_context_path`. -/
def formatContextPath (path : List String) : String :=
  match path with
  | [] => "context"
  | _ => ⟨"context.".data ++ joinWith ['.'] (path.map String.data)⟩

/-- `_parse_context_path`: strips whitespace, requires `context` or a
`context.` prefix, returns the dot-separated key sequence; an empty
remainder yields the root and any empty segment is an error. -/
def parseContextPath (path : String) : Except String (List String) :=
  if trimChars path.data = "context".data then .ok []
  else if "context.".data.isPrefixOf (trimChars path.data) then
    if (trimChars path.data).drop "context.".data.length = [] then .ok []
    else if (splitOnChar '.' ((trimChars path.data).drop "context.".data.length)).any
        (fun part => part.isEmpty) then
      .error ("Invalid context path: " ++ path)
    else .ok ((splitOnChar '.' ((trimChars path.data).drop "context.".data.length)).map
        (fun p => (⟨p⟩ : String)))
  else .error ("Path must start with 'context': " ++ path)

/-- `_split_relative_path`. -/
def splitRelativePath (path : String) : Except String (List String) :=
  if trimChars path.data = [] then .ok []
  else if (splitOnChar '.' (trimChars path.data)).any (fun part => part.isEmpty) then
    .error ("Invalid path: " ++ path)
  else .ok ((splitOnChar '.' (trimChars path.data)).map (fun p => (⟨p⟩ : String)))

/-- `_require_string`: a string-valued option must be non-empty after
stripping; returns the stripped string. -/
def requireString (v : String) (key : String) : Except String String :=
  if trimChars v.data = [] then .error ("Missing required option: " ++ key)
  else .ok (pyStrip v)

/-! ### Context tree getters / setters (`_get/_set/_pop_context_value`) -/

/-- `_get_context_value`: walks mapping lookups only; `none` models the
`_MISSING` sentinel returned on any dead end. -/
def getCtx (kvs : Ctx) : List String → Option Json
  | [] => some (.obj kvs)
  | k :: rest =>
    match dictGet kvs k with
    | some (.obj inner) => getCtx inner rest
    | some v => if rest.isEmpty then some v else none
    | none => none

/-- `_get_relative_value`: the same walk starting from an arbitrary value. -/
def getRel (v : Json) : List String → Option Json
  | [] => some v
  | k :: rest =>
    match v with
    | .obj kvs =>
      match dictGet kvs k with
      | some v' => getRel v' rest
      | none => none
    | _ => none

/-- Inner loop of `_set_context_value` for a non-empty path: creates (or
overwrites non-mapping) intermediates, then sets the final key. -/
def setIn (kvs : Ctx) : List String → Json → Ctx
  | [], _ => kvs
  | [k], v => dictSet kvs k v
  | k :: rest, v =>
    let nextKvs :=
      match dictGet kvs k with
      | some (.obj inner) => inner
      | _ => []
    dictSet kvs k (.obj (setIn nextKvs rest v))

/-- `_set_context_value`: a root-path set requires the replacement to be a
mapping (clear + repopulate); otherwise delegates to the walking setter. -/
def setCtx (kvs : Ctx) (path : List String) (v : Json) : Except String Ctx :=
  match path with
  | [] =>
    match v with
    | .obj kvs' => .ok kvs'
    | _ => .error "context root replacement must be an object."
  | _ => .ok (setIn kvs path v)

/-- `_pop_context_value`: walks like the getter, pops the final key; `none`
models the `_MISSING` sentinel (any absent segment, or the root path). -/
def popCtx (kvs : Ctx) : List String → Option (Json × Ctx)
  | [] => none
  | [k] =>
    match dictGet kvs k with
    | some v => some (v, dictRemove kvs k)
    | none => none
  | k :: rest =>
    match dictGet kvs k with
    | some (.obj inner) =>
      match popCtx inner rest with
      | some (v, inner') => some (v, dictSet kvs k (.obj inner'))
      | none => none
    | _ => none

/-! ### Cloning and deep merge -/

/-- `_clone` (`copy.deepcopy`): in a pure embedding a deep copy is the
value itself — the no-aliasing guarantee is not observable here. -/
def clone (v : Json) : Json := v

mutual

/-- `_deep_merge`: mapping/mapping collisions merge recursively with the
incoming side winning on scalars; any non-mapping collision takes the
incoming value outright.  `mergeInto` is the `for key, value in
incoming.items()` loop. -/
def deepMerge : Json → Json → Json
  | .obj bkvs, .obj ikvs => .obj (mergeInto bkvs ikvs)
  | _, incoming => incoming

def mergeInto (acc : List (String × Json)) : List (String × Json) → List (String × Json)
  | [] => acc
  | (k, v) :: rest =>
    match dictGet acc k with
    | some cur => mergeInto (dictSet acc k (deepMerge cur v)) rest
    | none => mergeInto (acc ++ [(k, v)]) rest

end

/-! ### Rendering for error-message interpolation

Models of Python `repr()` / `str()` as used in f-string error messages
and in the `string` coercion.  The exact text of a rendered container is
not load-bearing for any claim; the renderer is a faithful model of the
shapes Python produces for scalars. -/

mutual

def reprJson : Json → String
  | .null => "None"
  | .bool b => if b then "True" else "False"
  | .int n => toString n
  | .float q => if q.den = 1 then toString q.num ++ ".0" else toString q.num ++ "/" ++ toString q.den
  | .str s => "'" ++ s ++ "'"
  | .arr xs => "[" ++ reprList xs ++ "]"
  | .obj kvs => "\x7b" ++ reprKvs kvs ++ "\x7d"

def reprList : List Json → String
  | [] => ""
  | [x] => reprJson x
  | x :: rest => reprJson x ++ ", " ++ reprList rest

def reprKvs : List (String × Json) → String
  | [] => ""
  | [(k, v)] => "'" ++ k ++ "': " ++ reprJson v
  | (k, v) :: rest => "'" ++ k ++ "': " ++ reprJson v ++ ", " ++ reprKvs rest

end

/-- Python `str(value)`: like `repr` except top-level strings are bare. -/
def pyStr : Json → String
  | .str s => s
  | v => reprJson v

/-! ### Handler result type

The Python handlers mutate the caller's context dict in place and raise
`ValueError` on a violated precondition.  `TRes.err` records, together
with the message, the state of that dict at the moment of the raise — the
tree the caller observes after the exception propagates. -/

inductive TRes where
  | ok (ctx : Ctx) : TRes
  | err (msg : String) (ctx : Ctx) : TRes

/-- Lift a `_set_context_value` result into a handler result, keeping the
pre-set tree on error (the raise in `_set_context_value` happens before
any mutation). -/
def setRes (ctx : Ctx) (path : List String) (v : Json) : TRes :=
  match setCtx ctx path v with
  | .ok ctx' => .ok ctx'
  | .error e => .err e ctx

/-! ### `mount` -/

/-- The `with` options read by `_mount`.  `strategy` is `None` when the
key is absent (Python `options.get("strategy", "merge")`). -/
structure MountOptions where
  sourceId : String
  target : String
  strategy : Option String

/-- `_resolve_source_value`: the ambient sources map first, then the
`sources` mapping inside the context tree. -/
def resolveSourceValue (ctx : Ctx) (sources : Ctx) (sourceId : String) : Except String Json :=
  match dictGet sources sourceId with
  | some v => .ok (clone v)
  | none =>
    match dictGet ctx "sources" with
    | some (.obj cs) =>
      match dictGet cs sourceId with
      | some v => .ok (clone v)
      | none => .error ("mount source not found: " ++ sourceId)
    | _ => .error ("mount source not found: " ++ sourceId)

/-- `_mount`.  Note the source's order of checks: a missing target value
short-circuits to a clone of the source *before* the strategy string is
examined. -/
def mount (ctx : Ctx) (sources : Ctx) (opts : MountOptions) : TRes :=
  match requireString opts.sourceId "source_id" with
  | .error e => .err e ctx
  | .ok sourceId =>
    match requireString opts.target "target" with
    | .error e => .err e ctx
    | .ok targetStr =>
      match parseContextPath targetStr with
      | .error e => .err e ctx
      | .ok target =>
        match resolveSourceValue ctx sources sourceId with
        | .error e => .err e ctx
        | .ok sourceValue =>
          match getCtx ctx target with
          | none => setRes ctx target (clone sourceValue)
          | some existing =>
            if pyLower (pyStrip (opts.strategy.getD "merge")) = "merge" ∨
                pyLower (pyStrip (opts.strategy.getD "merge")) = "deep" then
              setRes ctx target (deepMerge existing sourceValue)
            else if pyLower (pyStrip (opts.strategy.getD "merge")) = "replace" then
              setRes ctx target (clone sourceValue)
            else .err "mount strategy must be one of: merge, deep, replace." ctx

/-! ### Coercion primitives (`_to_bool`, `_to_int`, `_to_float`) -/

/-- The case-insensitive truthy tokens of `_to_bool`. -/
def truthyTokens : List String := ["true", "1", "yes", "y", "on"]

/-- The case-insensitive falsy tokens of `_to_bool`. -/
def falsyTokens : List String := ["false", "0", "no", "n", "off"]

/-- `_to_bool`: booleans pass through; non-bool numerics equal to 1 / 0
map to `true` / `false`; strings are matched against the token sets after
strip+lower; everything else raises. -/
def toBool (v : Json) : Except String Bool :=
  match v with
  | .bool b => .ok b
  | .int n =>
    if n = 1 then .ok true
    else if n = 0 then .ok false
    else .error ("Cannot coerce to bool: " ++ reprJson v)
  | .float q =>
    if q = 1 then .ok true
    else if q = 0 then .ok false
    else .error ("Cannot coerce to bool: " ++ reprJson v)
  | .str s =>
    if truthyTokens.contains (pyLower (pyStrip s)) then .ok true
    else if falsyTokens.contains (pyLower (pyStrip s)) then .ok false
    else .error ("Cannot coerce to bool: " ++ reprJson v)
  | _ => .error ("Cannot coerce to bool: " ++ reprJson v)

/-- Python `int(text)` on a stripped string: an optional sign followed by
at least one digit (a model of the accepted integer literals). -/
def parsePyInt (cs : List Char) : Option Int :=
  let digits : List Char → Option Nat := fun ds =>
    if ds.isEmpty then none
    else if ds.all Char.isDigit then
      some (ds.foldl (fun acc c => acc * 10 + (c.toNat - 48)) 0)
    else none
  match cs with
  | '+' :: rest => (digits rest).map Int.ofNat
  | '-' :: rest => (digits rest).map (fun n => -(n : Int))
  | _ => (digits cs).map Int.ofNat

/-- `_to_int`: rejects booleans first; ints pass; floats must be finite
and integral; strings are parsed as integer literals. -/
def toInt (v : Json) : Except String Int :=
  match v with
  | .bool _ => .error ("Cannot coerce to int: " ++ reprJson v)
  | .int n => .ok n
  | .float q =>
    if q.den = 1 then .ok q.num
    else .error ("Cannot coerce to int: " ++ reprJson v)
  | .str s =>
    match parsePyInt (trimChars s.data) with
    | some n => .ok n
    | none => .error ("Cannot coerce to int: " ++ reprJson v)
  | _ => .error ("Cannot coerce to int: " ++ reprJson v)

/-- Python `float(text)` on a stripped string: an optional sign, digits
with an optional fractional part (a model of the accepted decimal
literals). -/
def parsePyFloat (cs : List Char) : Option ℚ :=
  let digitsVal : List Char → Nat := fun ds =>
    ds.foldl (fun acc c => acc * 10 + (c.toNat - 48)) 0
  let body : List Char → Option ℚ := fun ds =>
    match splitOnChar '.' ds with
    | [ip] =>
      if ip.isEmpty ∨ ¬ ip.all Char.isDigit then none
      else some ((digitsVal ip : ℚ))
    | [ip, fp] =>
      if (ip.isEmpty ∧ fp.isEmpty) ∨ ¬ ip.all Char.isDigit ∨ ¬ fp.all Char.isDigit then none
      else some ((digitsVal ip : ℚ) + (digitsVal fp : ℚ) / ((10 : ℚ) ^ fp.length))
    | _ => none
  match cs with
  | '+' :: rest => body rest
  | '-' :: rest => (body rest).map Neg.neg
  | _ => body cs

/-- `_to_float`: rejects booleans first; numerics widen; strings are
parsed as decimal literals. -/
def toFloat (v : Json) : Except String ℚ :=
  match v with
  | .bool _ => .error ("Cannot coerce to float: " ++ reprJson v)
  | .int n => .ok (n : ℚ)
  | .float q => .ok q
  | .str s =>
    match parsePyFloat (trimChars s.data) with
    | some q => .ok q
    | none => .error ("Cannot coerce to float: " ++ reprJson v)
  | _ => .error ("Cannot coerce to float: " ++ reprJson v)

/-! ### `rename` -/

/-- One entry of the `moves` list of `_rename`. -/
structure RenameMove where
  src : String
  dst : String
  ignoreMissing : Option Bool

/-- The per-move loop of `_rename`: parse both paths, pop the source,
skip or fail on missing, set at the target.  On an error the carried tree
is the state of the caller's dict at the raise. -/
def renameGo (defIgn : Bool) (ctx : Ctx) : List RenameMove → TRes
  | [] => .ok ctx
  | m :: rest =>
    match requireString m.src "from" with
    | .error e => .err e ctx
    | .ok s =>
      match parseContextPath s with
      | .error e => .err e ctx
      | .ok source =>
        match requireString m.dst "to" with
        | .error e => .err e ctx
        | .ok t =>
          match parseContextPath t with
          | .error e => .err e ctx
          | .ok target =>
            match popCtx ctx source with
            | none =>
              if m.ignoreMissing.getD defIgn then renameGo defIgn ctx rest
              else .err ("rename source path not found: " ++ formatContextPath source) ctx
            | some (moved, ctx') =>
              match setCtx ctx' target moved with
              | .error e => .err e ctx'
              | .ok ctx'' => renameGo defIgn ctx'' rest

/-! ### Timestamps (`_to_rfc3339`)

`datetime.fromisoformat` / `astimezone` / `isoformat` are standard-library
collaborators; they are modelled here restricted to the
`YYYY-MM-DD[<sep>HH:MM:SS[±HH:MM]]` grammar (CPython also accepts further
ISO-8601 variants such as fractional seconds, which no claim exercises).
Calendar arithmetic follows CPython's proleptic-Gregorian ordinal
functions (years 1–9999). -/

/-- Proleptic Gregorian leap year (CPython `_is_leap`). -/
def isLeap (y : Nat) : Bool := y % 4 == 0 && (y % 100 != 0 || y % 400 == 0)

/-- CPython `_days_in_month`. -/
def daysInMonth (y m : Nat) : Nat :=
  if m = 2 then (if isLeap y then 29 else 28)
  else if m = 4 ∨ m = 6 ∨ m = 9 ∨ m = 11 then 30
  else 31

/-- CPython `_days_before_month`. -/
def daysBeforeMonth (y m : Nat) : Nat :=
  (match m with
   | 1 => 0 | 2 => 31 | 3 => 59 | 4 => 90 | 5 => 120 | 6 => 151
   | 7 => 181 | 8 => 212 | 9 => 243 | 10 => 273 | 11 => 304 | _ => 334)
  + (if 2 < m ∧ isLeap y then 1 else 0)

/-- CPython `_days_before_year`. -/
def daysBeforeYear (y : Nat) : Nat :=
  (y - 1) * 365 + (y - 1) / 4 - (y - 1) / 100 + (y - 1) / 400

/-- CPython `datetime.toordinal`: day number in the proleptic Gregorian
calendar, with day 1 = January 1 of year 1. -/
def toOrdinal (y m d : Nat) : Nat := daysBeforeYear y + daysBeforeMonth y m + d

/-- The calendar successor of a day. -/
def nextDay (y m d : Nat) : Nat × Nat × Nat :=
  if d < daysInMonth y m then (y, m, d + 1)
  else if m < 12 then (y, m + 1, 1)
  else (y + 1, 1, 1)

/-- The calendar predecessor of a day. -/
def prevDay (y m d : Nat) : Nat × Nat × Nat :=
  if 1 < d then (y, m, d - 1)
  else if 1 < m then (y, m - 1, daysInMonth y (m - 1))
  else (y - 1, 12, 31)

/-- A parsed datetime: clock fields plus an optional UTC offset in
minutes (`none` = naive). -/
structure DT where
  year : Nat
  month : Nat
  day : Nat
  hour : Nat
  minute : Nat
  second : Nat
  offset : Option Int

/-- The numeric value of a decimal digit character. -/
def digitVal (c : Char) : Option Nat :=
  if c.isDigit then some (c.toNat - 48) else none

/-- Two decimal digits. -/
def parse2 (cs : List Char) : Option (Nat × List Char) :=
  match cs with
  | c1 :: c2 :: rest =>
    match digitVal c1, digitVal c2 with
    | some a, some b => some (a * 10 + b, rest)
    | _, _ => none
  | _ => none

/-- Four decimal digits. -/
def parse4 (cs : List Char) : Option (Nat × List Char) :=
  match cs with
  | c1 :: c2 :: c3 :: c4 :: rest =>
    match digitVal c1, digitVal c2, digitVal c3, digitVal c4 with
    | some a, some b, some c, some d => some (((a * 10 + b) * 10 + c) * 10 + d, rest)
    | _, _, _, _ => none
  | _ => none

/-- Consume one expected character. -/
def expectChar (c : Char) (cs : List Char) : Option (List Char) :=
  match cs with
  | x :: rest => if x = c then some rest else none
  | [] => none

/-- `YYYY-MM-DD` with `datetime`'s range validation. -/
def parseDatePart (cs : List Char) : Option ((Nat × Nat × Nat) × List Char) :=
  match parse4 cs with
  | none => none
  | some (y, r1) =>
    match expectChar '-' r1 with
    | none => none
    | some r2 =>
      match parse2 r2 with
      | none => none
      | some (m, r3) =>
        match expectChar '-' r3 with
        | none => none
        | some r4 =>
          match parse2 r4 with
          | none => none
          | some (d, r5) =>
            if 1 ≤ y ∧ 1 ≤ m ∧ m ≤ 12 ∧ 1 ≤ d ∧ d ≤ daysInMonth y m then
              some ((y, m, d), r5)
            else none

/-- `HH:MM:SS` with `datetime`'s range validation. -/
def parseTimePart (cs : List Char) : Option ((Nat × Nat × Nat) × List Char) :=
  match parse2 cs with
  | none => none
  | some (h, r1) =>
    match expectChar ':' r1 with
    | none => none
    | some r2 =>
      match parse2 r2 with
      | none => none
      | some (mi, r3) =>
        match expectChar ':' r3 with
        | none => none
        | some r4 =>
          match parse2 r4 with
          | none => none
          | some (s, r5) =>
            if h ≤ 23 ∧ mi ≤ 59 ∧ s ≤ 59 then some ((h, mi, s), r5)
            else none

/-- An optional trailing `±HH:MM` UTC offset (must consume the rest). -/
def parseOffsetPart (cs : List Char) : Option (Option Int) :=
  match cs with
  | [] => some none
  | c :: r =>
    if c = '+' ∨ c = '-' then
      match parse2 r with
      | none => none
      | some (oh, r1) =>
        match expectChar ':' r1 with
        | none => none
        | some r2 =>
          match parse2 r2 with
          | none => none
          | some (om, r3) =>
            if r3 = [] ∧ oh ≤ 23 ∧ om ≤ 59 then
              some (some (if c = '-' then -((oh * 60 + om : Nat) : Int)
                          else ((oh * 60 + om : Nat) : Int)))
            else none
    else none

/-- Model of `datetime.fromisoformat` on the supported grammar: a date,
optionally followed by a single separator character, a time, and an
optional offset. -/
def fromIso (cs : List Char) : Option DT :=
  match parseDatePart cs with
  | none => none
  | some ((y, m, d), rest) =>
    match rest with
    | [] => some ⟨y, m, d, 0, 0, 0, none⟩
    | _ :: timeRest =>
      match parseTimePart timeRest with
      | none => none
      | some ((h, mi, s), offRest) =>
        match parseOffsetPart offRest with
        | none => none
        | some off => some ⟨y, m, d, h, mi, s, off⟩

/-- Rebuild a UTC datetime from a day triple and an in-day second count. -/
def mkUtc : Nat × Nat × Nat → Nat → DT
  | (y, m, d), t => ⟨y, m, d, t / 3600, t % 3600 / 60, t % 60, some 0⟩

/-- Models `replace(tzinfo=utc)` for naive values and `astimezone(utc)`
for aware ones: subtract the offset and carry at most one day (offsets
are strictly under 24 hours). -/
def toUtc (dt : DT) : DT :=
  match dt.offset with
  | none => { dt with offset := some 0 }
  | some off =>
    if ((dt.hour * 3600 + dt.minute * 60 + dt.second : Nat) : Int) - off * 60 < 0 then
      mkUtc (prevDay dt.year dt.month dt.day)
        (((dt.hour * 3600 + dt.minute * 60 + dt.second : Nat) : Int) - off * 60 + 86400).toNat
    else if ((dt.hour * 3600 + dt.minute * 60 + dt.second : Nat) : Int) - off * 60 < 86400 then
      mkUtc (dt.year, dt.month, dt.day)
        (((dt.hour * 3600 + dt.minute * 60 + dt.second : Nat) : Int) - off * 60).toNat
    else
      mkUtc (nextDay dt.year dt.month dt.day)
        (((dt.hour * 3600 + dt.minute * 60 + dt.second : Nat) : Int) - off * 60 - 86400).toNat

/-- Zero-padded two-digit rendering. -/
def pad2 (n : Nat) : List Char :=
  [Char.ofNat (48 + n / 10 % 10), Char.ofNat (48 + n % 10)]

/-- Zero-padded four-digit rendering. -/
def pad4 (n : Nat) : List Char :=
  [Char.ofNat (48 + n / 1000 % 10), Char.ofNat (48 + n / 100 % 10),
   Char.ofNat (48 + n / 10 % 10), Char.ofNat (48 + n % 10)]

/-- `YYYY-MM-DD`. -/
def renderDateChars (y m d : Nat) : List Char :=
  pad4 y ++ '-' :: (pad2 m ++ '-' :: pad2 d)

/-- `HH:MM:SS`. -/
def renderTimeChars (h mi s : Nat) : List Char :=
  pad2 h ++ ':' :: (pad2 mi ++ ':' :: pad2 s)

/-- The canonical `...T...Z` form emitted by
`isoformat().replace("+00:00", "Z")` for a UTC datetime. -/
def renderCanonicalChars (y m d h mi s : Nat) : List Char :=
  renderDateChars y m d ++ 'T' :: (renderTimeChars h mi s ++ ['Z'])

/-- A `±HH:MM` offset suffix. -/
def renderOffsetChars (neg : Bool) (oh om : Nat) : List Char :=
  (if neg then '-' else '+') :: (pad2 oh ++ ':' :: pad2 om)

/-- `_to_rfc3339` (part 1): the 10-character dashed branch parses a bare date
as UTC midnight; otherwise a trailing `Z` is rewritten to `+00:00`, the
string is parsed, naive values are assumed UTC, aware values are
converted, and the canonical `Z` form is rendered. -/
def toRfc3339 (v : Json) : Except String String :=
  match v with
  | .str s =>
    if (trimChars s.data).length = 10 ∧ (trimChars s.data).get? 4 = some '-' ∧
        (trimChars s.data).get? 7 = some '-' then
      match fromIso (trimChars s.data) with
      | some dt =>
        .ok ⟨renderCanonicalChars dt.year dt.month dt.day dt.hour dt.minute dt.second⟩
      | none => .error ("Cannot coerce to timestamp: " ++ reprJson v)
    else
      match fromIso (if (trimChars s.data).getLast? = some 'Z'
          then (trimChars s.data).dropLast ++ "+00:00".data
          else trimChars s.data) with
      | some dt =>
        .ok ⟨renderCanonicalChars (toUtc dt).year (toUtc dt).month (toUtc dt).day
          (toUtc dt).hour (toUtc dt).minute (toUtc dt).second⟩
      | none => .error ("Cannot coerce to timestamp: " ++ reprJson v)
  | _ => .error ("Cannot coerce to timestamp: " ++ reprJson v)

/-! ### `coerce` -/

/-- `_coerce_value`: dispatch on the normalized type name. -/
def coerceValue (v : Json) (t : String) : Except String Json :=
  if t = "bool" ∨ t = "boolean" then (toBool v).map Json.bool
  else if t = "int" ∨ t = "integer" then (toInt v).map Json.int
  else if t = "float" ∨ t = "number" then (toFloat v).map Json.float
  else if t = "string" then .ok (.str (pyStr v))
  else if t = "timestamp" then (toRfc3339 v).map Json.str
  else .error ("Unsupported coerce type: " ++ t)

/-- One rule of `_coerce` (after `_extract_rules`). -/
structure CoerceRule where
  path : String
  typeName : String
  ignoreMissing : Option Bool

/-- The per-rule loop of `_coerce`: parse the path, read the current
value (skip or fail on missing), coerce it, write it back.  On an error
the carried tree is the state of the caller's dict at the raise. -/
def coerceGo (defIgn : Bool) (ctx : Ctx) : List CoerceRule → TRes
  | [] => .ok ctx
  | r :: rest =>
    match requireString r.path "path" with
    | .error e => .err e ctx
    | .ok p =>
      match parseContextPath p with
      | .error e => .err e ctx
      | .ok path =>
        match getCtx ctx path with
        | none =>
          if r.ignoreMissing.getD defIgn then coerceGo defIgn ctx rest
          else .err ("coerce path not found: " ++ formatContextPath path) ctx
        | some current =>
          match coerceValue current (pyLower (pyStrip r.typeName)) with
          | .error e => .err e ctx
          | .ok coerced =>
            match setCtx ctx path coerced with
            | .error e => .err e ctx
            | .ok ctx' => coerceGo defIgn ctx' rest

/-! ### Stable JSON rendering (`json.dumps(..., sort_keys=True)`)

Used by `_sort_token` (and `_stable_json_text`).  String escaping and the
decimal rendering of non-integral floats are modelled approximately (no
claim depends on those bytes); key sorting and structure are exact. -/

/-- Lexicographic (code-point) strict order on character lists — the
order Python uses to compare `str` values. -/
def charListLt : List Char → List Char → Bool
  | [], [] => false
  | [], _ :: _ => true
  | _ :: _, [] => false
  | c :: cs, d :: ds =>
    if c.toNat < d.toNat then true
    else if d.toNat < c.toNat then false
    else charListLt cs ds

/-- Python `a <= b` on strings. -/
def strLeB (a b : String) : Bool := !(charListLt b.data a.data)

/-- Decimal digits of a natural number (fuel-structured so it reduces in
the kernel; `n + 1` units of fuel always suffice). -/
def natToCharsGo : Nat → Nat → List Char
  | 0, _ => []
  | fuel + 1, n =>
    if n < 10 then [Char.ofNat (48 + n)]
    else natToCharsGo fuel (n / 10) ++ [Char.ofNat (48 + n % 10)]

/-- Decimal rendering of a natural number. -/
def natToChars (n : Nat) : List Char := natToCharsGo (n + 1) n

/-- Decimal rendering of an integer. -/
def intToChars (n : Int) : List Char :=
  if n < 0 then '-' :: natToChars n.natAbs else natToChars n.natAbs

/-- Rendering of a float value (exact for the integral floats the claims
exercise). -/
def ratToChars (q : ℚ) : List Char :=
  if q.den = 1 then intToChars q.num ++ ['.', '0']
  else intToChars q.num ++ '/' :: natToChars q.den

/-- A generic stable insertion into a sorted list: the new element goes
before the first element it compares `le` to, so that an element inserted
later lands after earlier equal elements (stability). -/
def insertLe {α : Type} (le : α → α → Bool) (x : α) : List α → List α
  | [] => [x]
  | y :: ys => if le x y then x :: y :: ys else y :: insertLe le x ys

/-- Stable insertion sort: the model of Python's stable `sorted` (the
output of a stable sort is uniquely determined by the comparison, so any
stable sort is extensionally `sorted`). -/
def isortLe {α : Type} (le : α → α → Bool) : List α → List α
  | [] => []
  | x :: xs => insertLe le x (isortLe le xs)

mutual

/-- `json.dumps(value, sort_keys=True, ensure_ascii=False,
separators=(",", ":"))`: object keys are rendered and emitted in sorted
order at every level. -/
def renderStableJson : Json → List Char
  | .null => "null".data
  | .bool b => if b then "true".data else "false".data
  | .int n => intToChars n
  | .float q => ratToChars q
  | .str s => '"' :: s.data ++ ['"']
  | .arr xs => '[' :: renderStableList xs ++ [']']
  | .obj kvs =>
    Char.ofNat 123 ::
      joinWith [','] ((isortLe (fun a b => strLeB a.1 b.1) (renderStableKvs kvs)).map
        (fun kv => '"' :: kv.1.data ++ '"' :: ':' :: kv.2))
      ++ [Char.ofNat 125]

def renderStableList : List Json → List Char
  | [] => []
  | [x] => renderStableJson x
  | x :: rest => renderStableJson x ++ ',' :: renderStableList rest

def renderStableKvs : List (String × Json) → List (String × List Char)
  | [] => []
  | (k, v) :: rest => (k, renderStableJson v) :: renderStableKvs rest

end

/-! ### Sort tokens and `_stable_sorted` -/

/-- The tagged sort token of `_sort_token`: null, bool, numeric, string,
then everything else by its stable JSON rendering. -/
inductive Tok where
  | tnull : Tok
  | tbool (n : Nat) : Tok
  | tnum (q : ℚ) : Tok
  | tstr (s : String) : Tok
  | tother (s : String) : Tok

/-- `_sort_token`. -/
def sortToken : Json → Tok
  | .null => .tnull
  | .bool b => .tbool (if b then 1 else 0)
  | .int n => .tnum (n : ℚ)
  | .float q => .tnum q
  | .str s => .tstr s
  | .arr xs => .tother ⟨renderStableJson (.arr xs)⟩
  | .obj kvs => .tother ⟨renderStableJson (.obj kvs)⟩

/-- The Python tuple a token compares as, embedded in a lexicographic
linear order (tag first, then the payload). -/
def tokKey : Tok → Lex (ℕ × Lex (ℚ × String))
  | .tnull => toLex (0, toLex (0, ""))
  | .tbool n => toLex (1, toLex ((n : ℚ), ""))
  | .tnum q => toLex (2, toLex (q, ""))
  | .tstr s => toLex (3, toLex (0, s))
  | .tother s => toLex (4, toLex (0, s))

/-- Whether the element at `by`-path is missing (`_MISSING` key in the
decorated triple). -/
def sortMissing (kp : Option (List String)) (v : Json) : Bool :=
  match kp with
  | none => false
  | some p => (getRel v p).isNone

/-- The sort key of a present element: the element itself without `by`,
otherwise the extracted value. -/
def sortTokOf (kp : Option (List String)) (v : Json) : Tok :=
  match kp with
  | none => sortToken v
  | some p => sortToken ((getRel v p).getD .null)

/-- The element comparison `sorted` is called with (`reverse=True` flips
the comparison but keeps stability). -/
def sortLe (kp : Option (List String)) (reverse : Bool) (a b : Json) : Bool :=
  if reverse then decide (tokKey (sortTokOf kp b) ≤ tokKey (sortTokOf kp a))
  else decide (tokKey (sortTokOf kp a) ≤ tokKey (sortTokOf kp b))

/-- `_stable_sorted`: decorate, split present-key from missing-key
elements (each keeping input order), stably sort the present ones, and
append the missing ones at the end. -/
def stableSorted (values : List Json) (kp : Option (List String)) (reverse : Bool) : List Json :=
  isortLe (sortLe kp reverse) (values.filter (fun v => !sortMissing kp v))
    ++ values.filter (fun v => sortMissing kp v)

/-! ### Schema DSL compiler (`schema/dsl.py`)

The DSL document is modelled as a typed tree carrying exactly the keys the
compiler dispatches on for structure (`$ref`, `type`, `fields` with the
per-field `required` flag, `strict`, `allow_empty_object`, `items`,
`nullable`); the scalar constraint keywords (`enum`, `min`/`max`, …) only
add leaf output keys and are not modelled — no claim depends on them. -/

inductive DNode where
  | ref (name : String) : DNode
  | objN (strict : Option Bool) (allowEmpty : Bool)
      (fields : List (String × Bool × DNode)) (nullable : Bool) : DNode
  | arrN (items : Option DNode) (nullable : Bool) : DNode
  | scalar (ntype : String) (nullable : Bool) : DNode

/-- The DSL document's top-level shape (`_TOP_LEVEL_KEYS`). -/
structure DDoc where
  dslVersion : String
  id : String
  title : String
  description : String
  root : String
  strict : Option Bool
  schema : DNode
  definitions : List (String × DNode)

/-- The supported scalar base types (`_BASE_TYPES` minus object/array). -/
def scalarTypes : List String := ["string", "number", "integer", "boolean", "null"]

/-- First-match field lookup (Python dict access on `fields`). -/
def lookupField (fields : List (String × Bool × DNode)) (name : String) :
    Option (Bool × DNode) :=
  match fields with
  | [] => none
  | (n, r, fn) :: rest => if n = name then some (r, fn) else lookupField rest name

/-- The final `nullable` widening: `compiled["type"] = [base, "null"]`
replaces the `type` entry in place. -/
def widenNullable (nullable : Bool) (baseType : String) (kvs : Ctx) : Ctx :=
  if nullable ∧ baseType ≠ "null" then
    dictSet kvs "type" (.arr [.str baseType, .str "null"])
  else kvs

mutual

/-- `_compile_node` (restricted to the modelled keys): dispatches on
`$ref` vs `type`, computes the effective `strict` for objects from the
node's own value or the inherited one, and widens `type` for `nullable`. -/
def compileNode (node : DNode) (path : String) (inheritedStrict : Bool) :
    Except String Json :=
  match node with
  | .ref name => .ok (.obj [("$ref", .str ("#/$defs/" ++ name))])
  | .objN strictOpt allowEmpty fields nullable =>
    if fields.isEmpty ∧ ¬allowEmpty then
      .error (path ++ ".fields must not be empty unless allow_empty_object is true.")
    else
      match compileFields fields path (strictOpt.getD inheritedStrict) with
      | .error e => .error e
      | .ok (props, reqs) =>
        .ok (.obj (widenNullable nullable "object"
          ([("type", .str "object"), ("properties", .obj props)]
            ++ (if reqs.isEmpty then [] else [("required", .arr (reqs.map Json.str))])
            ++ [("additionalProperties", .bool (!(strictOpt.getD inheritedStrict)))])))
  | .arrN itemsOpt nullable =>
    match itemsOpt with
    | none => .error (path ++ ".items is required for arrays.")
    | some items =>
      match compileNode items (path ++ ".items") inheritedStrict with
      | .error e => .error e
      | .ok ci => .ok (.obj (widenNullable nullable "array"
          [("type", .str "array"), ("items", ci)]))
  | .scalar t nullable =>
    if scalarTypes.contains t then
      .ok (.obj (widenNullable nullable t [("type", .str t)]))
    else .error (path ++ ".type is not supported: " ++ t)

/-- The field loop of `_compile_object_node`: compiles each field in
declaration order and collects the `required: true` names in order. -/
def compileFields (fields : List (String × Bool × DNode)) (path : String)
    (strict : Bool) : Except String (List (String × Json) × List String) :=
  match fields with
  | [] => .ok ([], [])
  | (name, required, fnode) :: rest =>
    if name = "" then .error (path ++ ".fields contains an invalid field name.")
    else
      match compileNode fnode (path ++ ".fields." ++ name) strict with
      | .error e => .error e
      | .ok cf =>
        match compileFields rest path strict with
        | .error e => .error e
        | .ok (props, reqs) =>
          .ok ((name, cf) :: props, if required then name :: reqs else reqs)

end

mutual

/-- `_collect_refs`: the `$ref` names reachable from a node through
object fields and array items (a list with the membership semantics of
the Python set). -/
def collectRefs : DNode → List String
  | .ref name => [name]
  | .objN _ _ fields _ => collectRefsFields fields
  | .arrN items _ =>
    match items with
    | some n => collectRefs n
    | none => []
  | .scalar _ _ => []

/-- The field loop of `_collect_refs`. -/
def collectRefsFields : List (String × Bool × DNode) → List String
  | [] => []
  | (_, _, fn) :: rest => collectRefs fn ++ collectRefsFields rest

end

/-- The first name of `names` not present in `univ` (the dangling
reference the loop reports). -/
def firstNotIn (names univ : List String) : Option String :=
  match names with
  | [] => none
  | n :: rest => if univ.contains n then firstNotIn rest univ else some n

/-- The dangling-reference scan over the definition bodies, in
declaration order. -/
def firstDanglingInDefs (defs : List (String × DNode)) (univ : List String) :
    Option String :=
  match defs with
  | [] => none
  | (_, node) :: rest =>
    match firstNotIn (collectRefs node) univ with
    | some r => some r
    | none => firstDanglingInDefs rest univ

/-- The three-color DFS state: `visit` is the Python `visit_state` dict
(1 = in progress, 2 = done, absent = unvisited) and `stack` the explicit
path stack.  `blacks` records the order nodes are marked done; it is
write-only bookkeeping used by the proofs and never influences control
flow. -/
structure DfsSt where
  visit : List (String × Nat)
  stack : List String
  blacks : List String

/-- Lookup in `visit_state` (0 = unvisited). -/
def lookupVisit (vs : List (String × Nat)) (k : String) : Nat :=
  match vs with
  | [] => 0
  | (k', n) :: rest => if k' = k then n else lookupVisit rest k

/-- Assignment into `visit_state`. -/
def setVisit (vs : List (String × Nat)) (k : String) (n : Nat) : List (String × Nat) :=
  match vs with
  | [] => [(k, n)]
  | (k', n') :: rest => if k' = k then (k', n) :: rest else (k', n') :: setVisit rest k n

/-- The successor list of a graph node. -/
def graphChildren (graph : List (String × List String)) (k : String) : List String :=
  match graph with
  | [] => []
  | (k', cs) :: rest => if k' = k then cs else graphChildren rest k

/-- DFS outcomes: a detected cycle path, or fuel exhaustion (proved
unreachable for fuel above the number of graph nodes). -/
inductive DfsErr where
  | cycle (path : List String) : DfsErr
  | fuelOut : DfsErr

mutual

/-- The recursive `dfs` of `_validate_references`: a gray revisit reports
the cycle `stack[stack.index(name):] + [name]`; a black node returns; a
white node is grayed, pushed, its children visited, then popped and
blackened. -/
def dfsNode (graph : List (String × List String)) (fuel : Nat) (name : String)
    (st : DfsSt) : Except DfsErr DfsSt :=
  match fuel with
  | 0 => .error .fuelOut
  | fuel' + 1 =>
    match lookupVisit st.visit name with
    | 1 => .error (.cycle ((st.stack.dropWhile (fun x => x ≠ name)) ++ [name]))
    | 2 => .ok st
    | _ =>
      match dfsList graph fuel' (graphChildren graph name)
          ⟨setVisit st.visit name 1, st.stack ++ [name], st.blacks⟩ with
      | .error e => .error e
      | .ok st2 => .ok ⟨setVisit st2.visit name 2, st2.stack.dropLast, st2.blacks ++ [name]⟩
termination_by (fuel, 0)

/-- Sequential DFS over a list of start nodes sharing one state (both the
children loop and the sorted outer loop). -/
def dfsList (graph : List (String × List String)) (fuel : Nat) (cs : List String)
    (st : DfsSt) : Except DfsErr DfsSt :=
  match cs with
  | [] => .ok st
  | c :: cs' =>
    match dfsNode graph fuel c st with
    | .error e => .error e
    | .ok st' => dfsList graph fuel cs' st'
termination_by (fuel, cs.length + 1)

end

/-- `" -> ".join(cycle)` wrapped into the error message. -/
def cycleMessage (path : List String) : String :=
  ⟨"Reference cycle detected: ".data ++ joinWith " -> ".data (path.map String.data)⟩

/-- `_validate_references`: dangling-reference checks for the root schema
and every definition body, then cycle detection by three-color DFS over
the definition graph, visiting the definition names in sorted order. -/
def validateRefs (rootSchema : DNode) (defs : List (String × DNode)) :
    Except String Unit :=
  match firstNotIn (collectRefs rootSchema) (defs.map Prod.fst) with
  | some r => .error ("Reference not found: " ++ r)
  | none =>
    match firstDanglingInDefs defs (defs.map Prod.fst) with
    | some r => .error ("Reference not found: " ++ r)
    | none =>
      match dfsList (defs.map (fun p => (p.1, collectRefs p.2))) (defs.length + 1)
          (isortLe strLeB (defs.map Prod.fst)) ⟨[], [], []⟩ with
      | .ok _ => .ok ()
      | .error (.cycle path) => .error (cycleMessage path)
      | .error .fuelOut => .error "Reference cycle detected: fuel exhausted"

/-- The supported DSL version literal. -/
def dslVersionLiteral : String := "opactx.schema/v1"

/-- The key/value list of a compiled node (compiled nodes are always
objects). -/
def jsonObjKvs : Json → Ctx
  | .obj kvs => kvs
  | _ => []

/-- Python `dict.update`: existing keys are replaced in place, new keys
appended in order. -/
def dictUpdate (base : Ctx) (incoming : Ctx) : Ctx :=
  match incoming with
  | [] => base
  | (k, v) :: rest => dictUpdate (dictSet base k v) rest

/-- The definition loop of `compile_context_schema`: each body compiled
with the document's top-level strict as the inherited value. -/
def compileDefs (defs : List (String × DNode)) (strictDefault : Bool) :
    Except String Ctx :=
  match defs with
  | [] => .ok []
  | (name, node) :: rest =>
    match compileNode node ("definitions." ++ name) strictDefault with
    | .error e => .error e
    | .ok cj =>
      match compileDefs rest strictDefault with
      | .error e => .error e
      | .ok out => .ok ((name, cj) :: out)

/-- `compile_context_schema` (restricted to the modelled node keys):
version check, required non-empty strings, root must be an object node,
reference validation (dangling then cycles) before any node is compiled,
then the root node and each definition body are compiled — both starting
from the document's top-level `strict` (default true). -/
def compileContextSchema (doc : DDoc) : Except String Json :=
  if doc.dslVersion ≠ dslVersionLiteral then
    .error ("Unsupported schema DSL version: " ++ doc.dslVersion)
  else if trimChars doc.id.data = [] then .error "root.id must be a non-empty string."
  else if trimChars doc.title.data = [] then .error "root.title must be a non-empty string."
  else if trimChars doc.description.data = [] then
    .error "root.description must be a non-empty string."
  else if trimChars doc.root.data = [] then .error "root.root must be a non-empty string."
  else
    match doc.schema with
    | .objN rs rae rfields rnull =>
      if (doc.definitions.map Prod.fst).any (fun n => n = "") then
        .error "Definition names must be non-empty strings."
      else
        match validateRefs doc.schema doc.definitions with
        | .error e => .error e
        | .ok _ =>
          match compileNode (.objN rs rae rfields rnull) "schema"
              (doc.strict.getD true) with
          | .error e => .error e
          | .ok compiledRoot =>
            match compileDefs doc.definitions (doc.strict.getD true) with
            | .error e => .error e
            | .ok defsOut =>
              .ok (.obj (dictUpdate
                [("$schema", .str "https://json-schema.org/draft/2020-12/schema"),
                 ("title", .str (pyStrip doc.title)),
                 ("description", .str (pyStrip doc.description)),
                 ("x-opactx-id", .str (pyStrip doc.id)),
                 ("x-opactx-root", .str (pyStrip doc.root))]
                (jsonObjKvs compiledRoot)
                ++ (if doc.definitions.isEmpty then [] else [("$defs", .obj defsOut)])))
    | _ => .error "root.schema.type must be 'object' in v0.1."

/-- `_stable_json_text`: stable serialization of the compiled schema plus
a trailing newline (the 2-space indentation whitespace is not modelled;
key order and content are). -/
def stableJsonText (j : Json) : String :=
  (⟨renderStableJson j⟩ : String) ++ "\n"

/-! ### Walks for stating the strict-inheritance claim -/

/-- One step down the DSL tree: into a named object field or into the
array item node. -/
inductive WalkStep where
  | field (name : String) : WalkStep
  | items : WalkStep

/-- Walk a DSL node along steps. -/
def walkNode : DNode → List WalkStep → Option DNode
  | n, [] => some n
  | .objN _ _ fields _, .field name :: rest =>
    match lookupField fields name with
    | some (_, fn) => walkNode fn rest
    | none => none
  | .arrN (some items) _, .items :: rest => walkNode items rest
  | _, _ => none

/-- Walk a compiled JSON-schema tree along the corresponding
`properties` / `items` keys. -/
def walkJson : Json → List WalkStep → Option Json
  | j, [] => some j
  | .obj kvs, .field name :: rest =>
    match dictGet kvs "properties" with
    | some (.obj props) =>
      match dictGet props name with
      | some cj => walkJson cj rest
      | _ => none
    | _ => none
  | .obj kvs, .items :: rest =>
    match dictGet kvs "items" with
    | some cj => walkJson cj rest
    | _ => none
  | _, _ => none

/-- The `strict` attributes of the object nodes strictly above the walk
target, outermost first (array nodes contribute nothing). -/
def strictChain : DNode → List WalkStep → List (Option Bool)
  | _, [] => []
  | .objN so _ fields _, .field name :: rest =>
    so :: (match lookupField fields name with
           | some (_, fn) => strictChain fn rest
           | none => [])
  | .arrN (some items) _, .items :: rest => strictChain items rest
  | _, _ => []

/-- The spec's effective strictness: the nearest (innermost) explicit
`strict` in the ancestor chain, else the supplied default. -/
def nearestStrict (chain : List (Option Bool)) (dflt : Bool) : Bool :=
  chain.foldl (fun acc o => o.getD acc) dflt

/-! ### Vocabulary for stating the remaining claims -/

/-- First-match lookup in the definitions map. -/
def lookupDef (defs : List (String × DNode)) (name : String) : Option DNode :=
  match defs with
  | [] => none
  | (n, node) :: rest => if n = name then some node else lookupDef rest name

/-- `v` occurs strictly before `u` in `l`. -/
def beforeIn {α : Type} [DecidableEq α] (l : List α) (v u : α) : Prop :=
  v ∈ l ∧ u ∈ l ∧ l.indexOf v < l.indexOf u

/-- The number of unvisited graph nodes (over a fixed universe of names). -/
def whiteCount (names : List String) (st : DfsSt) : Nat :=
  (names.filter (fun x =>
    !(lookupVisit st.visit x == 1) && !(lookupVisit st.visit x == 2))).length

/-- The DFS invariant: the `visit` map marks exactly the `blacks` as done,
`blacks` has no duplicates, and every blackened node's children are
blackened strictly before it. -/
def DfsInv (g : List (String × List String)) (st : DfsSt) : Prop :=
  (∀ x, lookupVisit st.visit x = 2 ↔ x ∈ st.blacks) ∧
  st.blacks.Nodup ∧
  (∀ u ∈ st.blacks, ∀ v ∈ graphChildren g u, beforeIn st.blacks v u)

/-- What one successful DFS call does to the state: the invariant is
maintained, the in-progress set is unchanged, blackened nodes are only
appended, and the stack is restored. -/
def DfsStep (g : List (String × List String)) (st st' : DfsSt) : Prop :=
  DfsInv g st' ∧
  (∀ x, lookupVisit st'.visit x = 1 ↔ lookupVisit st.visit x = 1) ∧
  (∃ δ, st'.blacks = st.blacks ++ δ) ∧
  st'.stack = st.stack

/-- The stack-side invariant used to bound the DFS recursion depth: the
gray stack is duplicate-free, drawn from the definition names, and marks
exactly the in-progress nodes. -/
def StackInv (univ : List String) (st : DfsSt) : Prop :=
  st.stack.Nodup ∧ (∀ x ∈ st.stack, x ∈ univ) ∧
  (∀ x, lookupVisit st.visit x = 1 ↔ x ∈ st.stack)

/-- The spec's two-node mutual-reference example: definition `A`'s field
`b` references `B` and `B`'s field `a` references `A`. -/
def docTwoCycle : DDoc :=
  { dslVersion := "opactx.schema/v1"
    id := "cycle-example"
    title := "Cycle"
    description := "Two-node reference cycle"
    root := "root"
    strict := none
    schema := .objN none false [("a", true, .scalar "string" false)] false
    definitions :=
      [("A", .objN none false [("b", true, .ref "B")] false),
       ("B", .objN none false [("a", true, .ref "A")] false)] }

/-- The two-node cycle document extended with a third definition holding a
dangling reference (`C.fields.d` references the undefined `D`). -/
def docCycDangling : DDoc :=
  { dslVersion := "opactx.schema/v1"
    id := "cycle-example"
    title := "Cycle"
    description := "Two-node reference cycle plus a dangling reference"
    root := "root"
    strict := none
    schema := .objN none false [("a", true, .scalar "string" false)] false
    definitions :=
      [("A", .objN none false [("b", true, .ref "B")] false),
       ("B", .objN none false [("a", true, .ref "A")] false),
       ("C", .objN none false [("d", true, .ref "D")] false)] }

/-- `pat` occurs as a substring of `s`. -/
def containsStr (s pat : String) : Prop :=
  ∃ l r, s.data = l ++ pat.data ++ r

/-- An edge of the definitions reference graph. -/
def graphEdge (g : List (String × List String)) (u v : String) : Prop :=
  v ∈ graphChildren g u

/-- The definitions reference graph contains a cycle. -/
def hasRefCycle (g : List (String × List String)) : Prop :=
  ∃ n, Relation.TransGen (graphEdge g) n n

end Opactx

namespace Opactx

/-! ### C7: context-path parsing -/

/-- The spec's characterization of when context-path parsing succeeds,
amended for the empty-remainder case: the stripped string is `context`,
or it starts with `context.` and the remainder is either empty (root) or
free of empty segments. -/
def specPathOk (s : String) : Prop :=
  trimChars s.data = "context".data ∨
    ("context.".data.isPrefixOf (trimChars s.data) ∧
      (trimChars s.data = "context.".data ∨
        ∀ part ∈ splitOnChar '.' ((trimChars s.data).drop 8), part ≠ []))

/-- The keys the spec says a successful parse yields: the dot-separated
segments after the `context.` prefix (none for the root forms). -/
def specPathKeys (s : String) : List String :=
  if trimChars s.data = "context".data ∨ (trimChars s.data).drop 8 = [] then []
  else (splitOnChar '.' ((trimChars s.data).drop 8)).map (fun p => (⟨p⟩ : String))

theorem length_context_prefix : "context.".data.length = 8 := by rfl

/-- C7 (amended): parsing succeeds exactly on the spec's forms — except
that a bare `context.` (empty remainder after the prefix) is accepted and
yields the root, rather than rejected — and a successful parse yields the
dot-separated keys after the prefix. -/
theorem parse_context_path_characterization (s : String) :
    ((∃ keys, parseContextPath s = .ok keys) ↔ specPathOk s) ∧
    (∀ keys, parseContextPath s = .ok keys → keys = specPathKeys s) := by
  by_cases h1 : trimChars s.data = "context".data
  · refine ⟨⟨fun _ => Or.inl h1, fun _ => ⟨[], by simp [parseContextPath, h1]⟩⟩, ?_⟩
    intro keys hk
    simp only [parseContextPath, if_pos h1, Except.ok.injEq] at hk
    simp [specPathKeys, h1, ← hk]
  · by_cases h2 : "context.".data.isPrefixOf (trimChars s.data) = true
    · by_cases h3 : (trimChars s.data).drop 8 = []
      · have htext : trimChars s.data = "context.".data := by
          have hpre := List.prefix_iff_eq_take.mp (List.isPrefixOf_iff_prefix.mp h2)
          conv_lhs => rw [← List.take_append_drop 8 (trimChars s.data)]
          rw [h3, List.append_nil, ← length_context_prefix, ← hpre]
        have hok : parseContextPath s = .ok [] := by
          simp [parseContextPath, h1, h2, length_context_prefix, h3]
        refine ⟨⟨fun _ => Or.inr ⟨h2, Or.inl htext⟩, fun _ => ⟨[], hok⟩⟩, ?_⟩
        intro keys hk
        rw [hok] at hk
        simp only [Except.ok.injEq] at hk
        simp [specPathKeys, h3, ← hk]
      · by_cases h4 : ((splitOnChar '.' ((trimChars s.data).drop 8)).any
            (fun part => part.isEmpty)) = true
        · have herr : parseContextPath s = .error ("Invalid context path: " ++ s) := by
            simp [parseContextPath, h1, h2, length_context_prefix, h3, h4]
          constructor
          · constructor
            · rintro ⟨keys, hk⟩
              rw [herr] at hk
              exact absurd hk (by simp)
            · rintro (h | ⟨-, h | h⟩)
              · exact absurd h h1
              · exact absurd (congrArg (List.drop 8) h) (by simpa using h3)
              · simp only [List.any_eq_true] at h4
                obtain ⟨part, hpart, hemp⟩ := h4
                exact absurd (by simpa using hemp) (h part hpart)
          · intro keys hk
            rw [herr] at hk
            exact absurd hk (by simp)
        · have hok : parseContextPath s =
              .ok ((splitOnChar '.' ((trimChars s.data).drop 8)).map
                (fun p => (⟨p⟩ : String))) := by
            simp [parseContextPath, h1, h2, length_context_prefix, h3, h4]
          have hall : ∀ part ∈ splitOnChar '.' ((trimChars s.data).drop 8), part ≠ [] := by
            intro part hpart hemp
            exact h4 (List.any_eq_true.mpr ⟨part, hpart, by simp [hemp]⟩)
          refine ⟨⟨fun _ => Or.inr ⟨h2, Or.inr hall⟩, fun _ => ⟨_, hok⟩⟩, ?_⟩
          intro keys hk
          rw [hok] at hk
          simp only [Except.ok.injEq] at hk
          simp [specPathKeys, h1, h3, ← hk]
    · have herr : parseContextPath s = .error ("Path must start with 'context': " ++ s) := by
        simp [parseContextPath, h1, h2]
      constructor
      · constructor
        · rintro ⟨keys, hk⟩
          rw [herr] at hk
          exact absurd hk (by simp)
        · rintro (h | ⟨hp, -⟩)
          · exact absurd h h1
          · exact absurd hp h2
      · intro keys hk
        rw [herr] at hk
        exact absurd hk (by simp)

/-- C7 (counterexample to the claim as stated): the string `context.` —
the prefix followed by nothing — is accepted by the parser and yields the
root, whereas the claim requires it to be rejected. -/
theorem parse_context_path_accepts_bare_prefix :
    parseContextPath "context." = .ok [] := by
  rfl

end Opactx

namespace Opactx

/-! ### C2: mount strategies -/

/-- C2 (counterexample to the claim as stated): with an unknown strategy
string (`"bogus"`) but no existing value at the target, `_mount` does not
raise — the missing-target check short-circuits to a clone of the source
before the strategy is examined, so the step succeeds. -/
theorem mount_unknown_strategy_missing_target_succeeds :
    mount [] [("s", .int 4)] ⟨"s", "context.x", some "bogus"⟩ = .ok [("x", .int 4)] := by
  rfl

/-- C2 (amended): when a value already exists at the target, `merge` and
`deep` deep-merge the source onto it, `replace` clones the source
wholesale, and any other strategy string raises; when nothing exists at
the target yet, the source is cloned in regardless of the strategy
value (unknown strategies included). -/
theorem mount_strategy_characterization
    (ctx sources : Ctx) (opts : MountOptions)
    (sid tstr : String) (target : List String) (src : Json)
    (h1 : requireString opts.sourceId "source_id" = .ok sid)
    (h2 : requireString opts.target "target" = .ok tstr)
    (h3 : parseContextPath tstr = .ok target)
    (h4 : resolveSourceValue ctx sources sid = .ok src) :
    (getCtx ctx target = none → mount ctx sources opts = setRes ctx target (clone src)) ∧
    (∀ existing, getCtx ctx target = some existing →
      ((pyLower (pyStrip (opts.strategy.getD "merge")) = "merge" ∨
          pyLower (pyStrip (opts.strategy.getD "merge")) = "deep") →
        mount ctx sources opts = setRes ctx target (deepMerge existing src)) ∧
      (pyLower (pyStrip (opts.strategy.getD "merge")) = "replace" →
        mount ctx sources opts = setRes ctx target (clone src)) ∧
      (pyLower (pyStrip (opts.strategy.getD "merge")) ≠ "merge" →
        pyLower (pyStrip (opts.strategy.getD "merge")) ≠ "deep" →
        pyLower (pyStrip (opts.strategy.getD "merge")) ≠ "replace" →
        mount ctx sources opts = .err "mount strategy must be one of: merge, deep, replace." ctx)) := by
  simp only [mount, h1, h2, h3, h4]
  constructor
  · intro hmiss
    simp only [hmiss]
  · intro existing hex
    simp only [hex]
    refine ⟨fun hs => ?_, fun hs => ?_, fun hs1 hs2 hs3 => ?_⟩
    · rw [if_pos hs]
    · rw [if_neg (by rintro (h | h) <;> simp_all), if_pos hs]
    · rw [if_neg (by rintro (h | h) <;> simp_all), if_neg hs3]

/-- C2 (witness): the spec's own example — existing `context.config =
{mem: 1}` and source `{cpu: 4}` — with strategy `merge` deep-merges onto
the existing value. -/
theorem mount_strategy_characterization_witness :
    requireString "s" "source_id" = .ok "s" ∧
    requireString "context.config" "target" = .ok "context.config" ∧
    parseContextPath "context.config" = .ok ["config"] ∧
    resolveSourceValue [("config", .obj [("mem", .int 1)])] [("s", .obj [("cpu", .int 4)])] "s"
      = .ok (.obj [("cpu", .int 4)]) ∧
    mount [("config", .obj [("mem", .int 1)])] [("s", .obj [("cpu", .int 4)])]
        ⟨"s", "context.config", none⟩
      = setRes [("config", .obj [("mem", .int 1)])] ["config"]
          (deepMerge (.obj [("mem", .int 1)]) (.obj [("cpu", .int 4)])) := by
  refine ⟨rfl, rfl, rfl, rfl, ?_⟩
  exact ((mount_strategy_characterization
      [("config", .obj [("mem", .int 1)])] [("s", .obj [("cpu", .int 4)])]
      ⟨"s", "context.config", none⟩ "s" "context.config" ["config"] (.obj [("cpu", .int 4)])
      rfl rfl rfl rfl).2 (.obj [("mem", .int 1)]) rfl).1 (Or.inl rfl)

/-! ### C9: boolean/numeric coercion specials -/

/-- C9: `coerce` never widens booleans to numbers — `_to_int` and
`_to_float` reject booleans outright — while `_to_bool` accepts actual
booleans unchanged, accepts the numeric values 0 and 1 (int or float),
and rejects every other number. -/
theorem coerce_bool_numeric_specials :
    (∀ b : Bool, ∃ e, toInt (.bool b) = .error e) ∧
    (∀ b : Bool, ∃ e, toFloat (.bool b) = .error e) ∧
    (∀ b : Bool, toBool (.bool b) = .ok b) ∧
    toBool (.int 0) = .ok false ∧ toBool (.int 1) = .ok true ∧
    toBool (.float 0) = .ok false ∧ toBool (.float 1) = .ok true ∧
    (∀ n : Int, n ≠ 0 → n ≠ 1 → ∃ e, toBool (.int n) = .error e) ∧
    (∀ q : ℚ, q ≠ 0 → q ≠ 1 → ∃ e, toBool (.float q) = .error e) := by
  refine ⟨fun b => ⟨_, rfl⟩, fun b => ⟨_, rfl⟩, fun b => rfl, ?_, rfl, ?_, ?_, ?_, ?_⟩
  · simp [toBool]
  · simp [toBool]
  · simp [toBool]
  · intro n h0 h1
    refine ⟨"Cannot coerce to bool: " ++ reprJson (.int n), ?_⟩
    simp [toBool, h0, h1]
  · intro q h0 h1
    refine ⟨"Cannot coerce to bool: " ++ reprJson (.float q), ?_⟩
    simp [toBool, h0, h1]

/-- C9 (witness): the hypothesis-bearing conjuncts at the concrete
numbers 2 and 3/2. -/
theorem coerce_bool_numeric_specials_witness :
    ((2 : Int) ≠ 0) ∧ ((2 : Int) ≠ 1) ∧ (∃ e, toBool (.int 2) = .error e) ∧
    ((3/2 : ℚ) ≠ 0) ∧ ((3/2 : ℚ) ≠ 1) ∧ (∃ e, toBool (.float (3/2)) = .error e) := by
  refine ⟨by decide, by decide, ?_, by norm_num, by norm_num, ?_⟩
  · exact coerce_bool_numeric_specials.2.2.2.2.2.2.2.1 2 (by decide) (by decide)
  · exact coerce_bool_numeric_specials.2.2.2.2.2.2.2.2 (3/2) (by norm_num) (by norm_num)

/-! ### C10: renaming away the context root -/

/-- C10: popping the root path always reports missing, so a `rename` move
from `context` is a no-op when `ignore_missing` holds (including by its
default of true) and raises "rename source path not found: context" when
`ignore_missing` is false. -/
theorem rename_root_source_never_moves (ctx : Ctx) (defIgn : Bool) (dst t : String)
    (tgt : List String)
    (h1 : requireString dst "to" = .ok t) (h2 : parseContextPath t = .ok tgt) :
    popCtx ctx [] = none ∧
    renameGo true ctx [⟨"context", dst, none⟩] = .ok ctx ∧
    renameGo defIgn ctx [⟨"context", dst, some true⟩] = .ok ctx ∧
    renameGo defIgn ctx [⟨"context", dst, some false⟩] =
      .err "rename source path not found: context" ctx := by
  have hsrc : requireString "context" "from" = .ok "context" := rfl
  have hparse : parseContextPath "context" = .ok [] := rfl
  have hpop : popCtx ctx [] = none := rfl
  have hmsg : "rename source path not found: " ++ formatContextPath [] =
      "rename source path not found: context" := rfl
  refine ⟨rfl, ?_, ?_, ?_⟩ <;>
    simp [renameGo, hsrc, hparse, h1, h2, hpop, hmsg]

/-- C10 (witness): a concrete tree and target path. -/
theorem rename_root_source_never_moves_witness :
    requireString "context.b" "to" = .ok "context.b" ∧
    parseContextPath "context.b" = .ok ["b"] ∧
    renameGo true [("a", .int 1)] [⟨"context", "context.b", some false⟩] =
      .err "rename source path not found: context" [("a", .int 1)] := by
  refine ⟨rfl, rfl, ?_⟩
  exact (rename_root_source_never_moves [("a", .int 1)] true "context.b" "context.b" ["b"]
    rfl rfl).2.2.2

end Opactx

namespace Opactx

/-! ### C1: atomicity of rename / coerce -/

/-- C1 (counterexample to the claim as stated): a `rename` with a `moves`
list whose first move succeeds and whose second move fails (with
`ignore_missing` false) raises — but the tree visible to the caller shows
the first move applied (`a` renamed to `b`), not the untouched input. -/
theorem rename_error_leaves_earlier_moves_applied :
    renameGo true [("a", .int 1)]
      [⟨"context.a", "context.b", none⟩, ⟨"context.x", "context.y", some false⟩] =
      .err "rename source path not found: context.x" [("b", .int 1)] ∧
    [("b", Json.int 1)] ≠ [("a", Json.int 1)] := by
  refine ⟨rfl, ?_⟩
  simp

/-- C1 (amended): each op either returns a fully-formed tree or raises,
but `rename` and `coerce` thread the caller's tree through their rule
loops in place — when one rule is applied successfully, the remaining
rules run against the updated tree, so an error raised by a later rule
surfaces the partially-rewritten tree to the caller. -/
theorem transform_rules_thread_mutated_tree :
    (∀ (defIgn : Bool) (ctx : Ctx) (m : RenameMove) (rest : List RenameMove)
       (s t : String) (src tgt : List String) (moved : Json) (ctx' ctx'' : Ctx),
       requireString m.src "from" = .ok s → parseContextPath s = .ok src →
       requireString m.dst "to" = .ok t → parseContextPath t = .ok tgt →
       popCtx ctx src = some (moved, ctx') → setCtx ctx' tgt moved = .ok ctx'' →
       renameGo defIgn ctx (m :: rest) = renameGo defIgn ctx'' rest) ∧
    (∀ (defIgn : Bool) (ctx : Ctx) (r : CoerceRule) (rest : List CoerceRule)
       (p : String) (path : List String) (current coerced : Json) (ctx' : Ctx),
       requireString r.path "path" = .ok p → parseContextPath p = .ok path →
       getCtx ctx path = some current →
       coerceValue current (pyLower (pyStrip r.typeName)) = .ok coerced →
       setCtx ctx path coerced = .ok ctx' →
       coerceGo defIgn ctx (r :: rest) = coerceGo defIgn ctx' rest) := by
  constructor
  · intro defIgn ctx m rest s t src tgt moved ctx' ctx'' h1 h2 h3 h4 h5 h6
    simp only [renameGo, h1, h2, h3, h4, h5, h6]
  · intro defIgn ctx r rest p path current coerced ctx' h1 h2 h3 h4 h5
    simp only [coerceGo, h1, h2, h3, h4, h5]

/-- C1 (witness): both step lemmas applied at concrete inputs — the
rename move `context.a → context.b` on `{a: 1}` and the coercion of
`{n: "42"}` to int. -/
theorem transform_rules_thread_mutated_tree_witness :
    requireString "context.a" "from" = .ok "context.a" ∧
    parseContextPath "context.a" = .ok ["a"] ∧
    requireString "context.b" "to" = .ok "context.b" ∧
    parseContextPath "context.b" = .ok ["b"] ∧
    popCtx [("a", .int 1)] ["a"] = some (.int 1, []) ∧
    setCtx [] ["b"] (.int 1) = .ok [("b", .int 1)] ∧
    renameGo true [("a", .int 1)]
        [⟨"context.a", "context.b", none⟩, ⟨"context.x", "context.y", some false⟩] =
      renameGo true [("b", .int 1)] [⟨"context.x", "context.y", some false⟩] ∧
    requireString "context.n" "path" = .ok "context.n" ∧
    parseContextPath "context.n" = .ok ["n"] ∧
    getCtx [("n", .str "42")] ["n"] = some (.str "42") ∧
    coerceValue (.str "42") (pyLower (pyStrip "int")) = .ok (.int 42) ∧
    setCtx [("n", .str "42")] ["n"] (.int 42) = .ok [("n", .int 42)] ∧
    coerceGo true [("n", .str "42")] [⟨"context.n", "int", none⟩] =
      coerceGo true [("n", .int 42)] [] := by
  refine ⟨rfl, rfl, rfl, rfl, rfl, rfl, ?_, rfl, rfl, rfl, rfl, rfl, ?_⟩
  · exact transform_rules_thread_mutated_tree.1 true [("a", .int 1)]
      ⟨"context.a", "context.b", none⟩ [⟨"context.x", "context.y", some false⟩]
      "context.a" "context.b" ["a"] ["b"] (.int 1) [] [("b", .int 1)]
      rfl rfl rfl rfl rfl rfl
  · exact transform_rules_thread_mutated_tree.2 true [("n", .str "42")]
      ⟨"context.n", "int", none⟩ [] "context.n" ["n"] (.str "42") (.int 42)
      [("n", .int 42)] rfl rfl rfl rfl rfl

end Opactx

namespace Opactx

/-- C7 (witness): the characterization applied at a concrete path. -/
theorem parse_context_path_characterization_witness :
    parseContextPath "context.a.b" = .ok ["a", "b"] ∧
    ["a", "b"] = specPathKeys "context.a.b" := by
  exact ⟨rfl, (parse_context_path_characterization "context.a.b").2 ["a", "b"] rfl⟩

/-! ### C5: stable sorting -/

theorem insertLe_perm {α : Type} (le : α → α → Bool) (x : α) (l : List α) :
    (insertLe le x l).Perm (x :: l) := by
  induction l with
  | nil => rfl
  | cons y ys ih =>
    by_cases h : le x y = true
    · simp [insertLe, h]
    · simp only [insertLe, h]
      rw [if_neg (by simp [h])]
      exact (List.Perm.cons y ih).trans (List.Perm.swap x y ys)

theorem isortLe_perm {α : Type} (le : α → α → Bool) (l : List α) :
    (isortLe le l).Perm l := by
  induction l with
  | nil => rfl
  | cons x xs ih =>
    exact (insertLe_perm le x (isortLe le xs)).trans (List.Perm.cons x ih)

theorem insertLe_pairwise {α : Type} (le : α → α → Bool)
    (htotal : ∀ a b, le a b = true ∨ le b a = true)
    (htrans : ∀ a b c, le a b = true → le b c = true → le a c = true)
    (x : α) (l : List α) (h : l.Pairwise (fun a b => le a b = true)) :
    (insertLe le x l).Pairwise (fun a b => le a b = true) := by
  induction l with
  | nil => simp [insertLe]
  | cons y ys ih =>
    rcases List.pairwise_cons.mp h with ⟨hy, hys⟩
    by_cases hxy : le x y = true
    · simp only [insertLe, if_pos hxy]
      refine List.pairwise_cons.mpr ⟨?_, h⟩
      intro z hz
      rcases List.mem_cons.mp hz with rfl | hz
      · exact hxy
      · exact htrans x y z hxy (hy z hz)
    · simp only [insertLe, if_neg hxy]
      refine List.pairwise_cons.mpr ⟨?_, ih hys⟩
      intro z hz
      have hz' := (insertLe_perm le x ys).mem_iff.mp hz
      cases List.mem_cons.mp hz' with
      | inl heq =>
        cases heq
        rcases htotal x y with h' | h'
        · exact absurd h' hxy
        · exact h'
      | inr hz'' => exact hy z hz''

theorem isortLe_pairwise {α : Type} (le : α → α → Bool)
    (htotal : ∀ a b, le a b = true ∨ le b a = true)
    (htrans : ∀ a b c, le a b = true → le b c = true → le a c = true)
    (l : List α) : (isortLe le l).Pairwise (fun a b => le a b = true) := by
  induction l with
  | nil => simp [isortLe]
  | cons x xs ih => exact insertLe_pairwise le htotal htrans x (isortLe le xs) ih

theorem insertLe_filter_key {α κ : Type} [DecidableEq κ] (key : α → κ)
    (le : α → α → Bool) (hrefl : ∀ a b, key a = key b → le a b = true)
    (x : α) (l : List α) (k : κ) :
    (insertLe le x l).filter (fun z => decide (key z = k)) =
      if key x = k then x :: l.filter (fun z => decide (key z = k))
      else l.filter (fun z => decide (key z = k)) := by
  induction l with
  | nil =>
    by_cases hx : key x = k <;> simp [insertLe, List.filter, hx]
  | cons y ys ih =>
    by_cases hxy : le x y = true
    · by_cases hx : key x = k <;>
        simp [insertLe, if_pos hxy, List.filter, hx]
    · by_cases hyk : key y = k
      · have hxk : key x ≠ k := by
          intro hxk
          exact hxy (hrefl x y (by rw [hxk, hyk]))
        simp [insertLe, if_neg hxy, List.filter, hyk, hxk, ih]
      · by_cases hx : key x = k <;>
          simp [insertLe, if_neg hxy, List.filter, hyk, hx, ih]

theorem isortLe_filter_key {α κ : Type} [DecidableEq κ] (key : α → κ)
    (le : α → α → Bool) (hrefl : ∀ a b, key a = key b → le a b = true)
    (l : List α) (k : κ) :
    (isortLe le l).filter (fun z => decide (key z = k)) =
      l.filter (fun z => decide (key z = k)) := by
  induction l with
  | nil => rfl
  | cons x xs ih =>
    rw [isortLe, insertLe_filter_key key le hrefl x (isortLe le xs) k, List.filter]
    by_cases hx : key x = k
    · simp [hx, ih]
    · simp [hx, ih]

theorem sortLe_total (kp : Option (List String)) (rev : Bool) (a b : Json) :
    sortLe kp rev a b = true ∨ sortLe kp rev b a = true := by
  cases rev <;> simp [sortLe] <;> exact le_total _ _

theorem sortLe_trans (kp : Option (List String)) (rev : Bool) (a b c : Json)
    (h1 : sortLe kp rev a b = true) (h2 : sortLe kp rev b c = true) :
    sortLe kp rev a c = true := by
  cases rev <;> simp [sortLe] at h1 h2 ⊢
  · exact le_trans h1 h2
  · exact le_trans h2 h1

theorem sortLe_of_key_eq (kp : Option (List String)) (rev : Bool) (a b : Json)
    (h : tokKey (sortTokOf kp a) = tokKey (sortTokOf kp b)) :
    sortLe kp rev a b = true := by
  cases rev <;> simp [sortLe, h, le_refl]

/-- C5: `_stable_sorted` returns a permutation of the input in which the
elements missing the `by` key trail all present-key elements in their
original relative order (whatever the direction); the present-key prefix
is ordered by the tagged sort token (ascending or descending per the
requested direction), and the sort is stable: for every token value, the
elements carrying it appear in their original relative order. -/
theorem sort_stable_spec (values : List Json) (kp : Option (List String))
    (reverse : Bool) :
    (stableSorted values kp reverse).Perm values ∧
    ∃ pre, stableSorted values kp reverse =
        pre ++ values.filter (fun v => sortMissing kp v) ∧
      pre.Perm (values.filter (fun v => !sortMissing kp v)) ∧
      pre.Pairwise (fun a b => sortLe kp reverse a b = true) ∧
      (∀ k, pre.filter (fun v => decide (tokKey (sortTokOf kp v) = k)) =
        (values.filter (fun v => !sortMissing kp v)).filter
          (fun v => decide (tokKey (sortTokOf kp v) = k))) := by
  constructor
  · refine ((isortLe_perm _ _).append_right _).trans ?_
    have := List.filter_append_perm (fun v => !sortMissing kp v) values
    simpa using this
  · refine ⟨isortLe (sortLe kp reverse) (values.filter (fun v => !sortMissing kp v)),
      rfl, isortLe_perm _ _, ?_, ?_⟩
    · exact isortLe_pairwise _ (sortLe_total kp reverse)
        (sortLe_trans kp reverse) _
    · intro k
      exact isortLe_filter_key (fun v => tokKey (sortTokOf kp v))
        (sortLe kp reverse) (sortLe_of_key_eq kp reverse) _ k

end Opactx

namespace Opactx

/-! ### C3: strict inheritance -/

theorem dictGet_dictSet_self (kvs : Ctx) (k : String) (v : Json) :
    dictGet (dictSet kvs k v) k = some v := by
  induction kvs with
  | nil => simp [dictSet, dictGet]
  | cons hd tl ih =>
    obtain ⟨k', v'⟩ := hd
    by_cases h : k' = k
    · simp [dictSet, dictGet, h]
    · simp [dictSet, dictGet, h, ih]

theorem dictGet_dictSet_ne (kvs : Ctx) (k k' : String) (v : Json) (h : k ≠ k') :
    dictGet (dictSet kvs k v) k' = dictGet kvs k' := by
  induction kvs with
  | nil => simp [dictSet, dictGet, h]
  | cons hd tl ih =>
    obtain ⟨k0, v0⟩ := hd
    by_cases h0 : k0 = k
    · subst h0
      simp [dictSet, dictGet, h]
    · simp [dictSet, dictGet, h0, ih]

theorem dictGet_append (a b : Ctx) (k : String) :
    dictGet (a ++ b) k =
      match dictGet a k with
      | some v => some v
      | none => dictGet b k := by
  induction a with
  | nil => simp [dictGet]
  | cons hd tl ih =>
    obtain ⟨k0, v0⟩ := hd
    by_cases h : k0 = k
    · simp [dictGet, h]
    · simp [dictGet, h, ih]

theorem dictGet_dictUpdate_not_mem (base : Ctx) (kvs : Ctx) (k : String)
    (h : k ∉ kvs.map Prod.fst) :
    dictGet (dictUpdate base kvs) k = dictGet base k := by
  induction kvs generalizing base with
  | nil => rfl
  | cons hd tl ih =>
    obtain ⟨k0, v0⟩ := hd
    simp only [List.map_cons, List.mem_cons, not_or] at h
    rw [dictUpdate, ih (dictSet base k0 v0) h.2,
      dictGet_dictSet_ne base k0 k v0 (fun he => h.1 he.symm)]

theorem dictGet_dictUpdate_nodup (base : Ctx) (kvs : Ctx) (k : String)
    (hnd : (kvs.map Prod.fst).Nodup) (hbase : dictGet base k = none) :
    dictGet (dictUpdate base kvs) k = dictGet kvs k := by
  induction kvs generalizing base with
  | nil => simpa [dictUpdate, dictGet] using hbase
  | cons hd tl ih =>
    obtain ⟨k0, v0⟩ := hd
    simp only [List.map_cons, List.nodup_cons] at hnd
    by_cases h : k0 = k
    · subst h
      rw [dictUpdate, dictGet_dictUpdate_not_mem (dictSet base k0 v0) tl k0 hnd.1,
        dictGet_dictSet_self]
      simp [dictGet]
    · rw [dictUpdate, ih (dictSet base k0 v0) hnd.2
        (by rw [dictGet_dictSet_ne base k0 k v0 h]; exact hbase)]
      simp [dictGet, h]

theorem compileNode_obj_inv {so : Option Bool} {ae : Bool}
    {flds : List (String × Bool × DNode)} {nb : Bool} {path : String}
    {inh : Bool} {cj : Json}
    (h : compileNode (.objN so ae flds nb) path inh = .ok cj) :
    ∃ props reqs, compileFields flds path (so.getD inh) = .ok (props, reqs) ∧
      cj = .obj (widenNullable nb "object"
        ([("type", .str "object"), ("properties", .obj props)]
          ++ (if reqs.isEmpty then [] else [("required", .arr (reqs.map Json.str))])
          ++ [("additionalProperties", .bool (!(so.getD inh)))])) := by
  rw [compileNode] at h
  split at h
  · exact absurd h (by simp)
  · split at h
    · exact absurd h (by simp)
    · next props reqs heq =>
      simp only [Except.ok.injEq] at h
      exact ⟨props, reqs, heq, h.symm⟩

theorem compileNode_arr_inv {items : DNode} {nb : Bool} {path : String}
    {inh : Bool} {cj : Json}
    (h : compileNode (.arrN (some items) nb) path inh = .ok cj) :
    ∃ ci, compileNode items (path ++ ".items") inh = .ok ci ∧
      cj = .obj (widenNullable nb "array"
        [("type", .str "array"), ("items", ci)]) := by
  rw [compileNode] at h
  split at h
  · exact absurd h (by simp)
  · next ci heq =>
    simp only [Except.ok.injEq] at h
    exact ⟨ci, heq, h.symm⟩

theorem compiledObj_get_aP (nb : Bool) (props : Ctx) (reqs : List String) (b : Bool) :
    dictGet (widenNullable nb "object"
      ([("type", .str "object"), ("properties", .obj props)]
        ++ (if reqs.isEmpty then [] else [("required", .arr (reqs.map Json.str))])
        ++ [("additionalProperties", .bool b)])) "additionalProperties" =
      some (.bool b) := by
  cases nb <;> cases reqs <;> rfl

theorem compiledObj_get_props (nb : Bool) (props : Ctx) (reqs : List String) (b : Bool) :
    dictGet (widenNullable nb "object"
      ([("type", .str "object"), ("properties", .obj props)]
        ++ (if reqs.isEmpty then [] else [("required", .arr (reqs.map Json.str))])
        ++ [("additionalProperties", .bool b)])) "properties" =
      some (.obj props) := by
  cases nb <;> cases reqs <;> rfl

theorem compiledObj_keys (nb : Bool) (props : Ctx) (reqs : List String) (b : Bool) :
    (widenNullable nb "object"
      ([("type", .str "object"), ("properties", .obj props)]
        ++ (if reqs.isEmpty then [] else [("required", .arr (reqs.map Json.str))])
        ++ [("additionalProperties", .bool b)])).map Prod.fst =
      if reqs.isEmpty then ["type", "properties", "additionalProperties"]
      else ["type", "properties", "required", "additionalProperties"] := by
  cases nb <;> cases reqs <;> rfl

theorem compiledArr_get_items (nb : Bool) (ci : Json) :
    dictGet (widenNullable nb "array" [("type", .str "array"), ("items", ci)])
      "items" = some ci := by
  cases nb <;> rfl

theorem compileFields_lookup {flds : List (String × Bool × DNode)} {path : String}
    {strict : Bool} {props : List (String × Json)} {reqs : List String}
    {name : String} {req : Bool} {fn : DNode}
    (hf : compileFields flds path strict = .ok (props, reqs))
    (hl : lookupField flds name = some (req, fn)) :
    ∃ cf, dictGet props name = some cf ∧
      compileNode fn (path ++ ".fields." ++ name) strict = .ok cf := by
  induction flds generalizing props reqs with
  | nil => simp [lookupField] at hl
  | cons hd tl ih =>
    obtain ⟨n0, r0, f0⟩ := hd
    rw [compileFields] at hf
    split at hf
    · exact absurd hf (by simp)
    · cases hcf0 : compileNode f0 (path ++ ".fields." ++ n0) strict with
      | error e => rw [hcf0] at hf; exact absurd hf (by simp)
      | ok cf0 =>
        rw [hcf0] at hf
        cases hrest : compileFields tl path strict with
        | error e => rw [hrest] at hf; exact absurd hf (by simp)
        | ok pr =>
          obtain ⟨props', reqs'⟩ := pr
          rw [hrest] at hf
          simp only [Except.ok.injEq, Prod.mk.injEq] at hf
          obtain ⟨hprops, _⟩ := hf
          by_cases hname : n0 = name
          · subst hname
            rw [lookupField, if_pos rfl] at hl
            simp only [Option.some.injEq, Prod.mk.injEq] at hl
            refine ⟨cf0, ?_, ?_⟩
            · rw [← hprops]
              simp [dictGet]
            · rw [← hl.2]
              exact hcf0
          · rw [lookupField, if_neg hname] at hl
            obtain ⟨cf, hget, hcomp⟩ := ih hrest hl
            refine ⟨cf, ?_, hcomp⟩
            rw [← hprops]
            simp [dictGet, hname, hget]

theorem compileDefs_lookup {defs : List (String × DNode)} {sd : Bool}
    {out : Ctx} {name : String} {node : DNode}
    (hd : compileDefs defs sd = .ok out)
    (hl : lookupDef defs name = some node) :
    ∃ cj, dictGet out name = some cj ∧
      compileNode node ("definitions." ++ name) sd = .ok cj := by
  induction defs generalizing out with
  | nil => simp [lookupDef] at hl
  | cons hd0 tl ih =>
    obtain ⟨n0, node0⟩ := hd0
    rw [compileDefs] at hd
    cases hc0 : compileNode node0 ("definitions." ++ n0) sd with
    | error e => rw [hc0] at hd; exact absurd hd (by simp)
    | ok cj0 =>
      rw [hc0] at hd
      cases hrest : compileDefs tl sd with
      | error e => rw [hrest] at hd; exact absurd hd (by simp)
      | ok out' =>
        rw [hrest] at hd
        simp only [Except.ok.injEq] at hd
        by_cases hname : n0 = name
        · subst hname
          rw [lookupDef, if_pos rfl] at hl
          simp only [Option.some.injEq] at hl
          subst hl
          refine ⟨cj0, ?_, hc0⟩
          rw [← hd]
          simp [dictGet]
        · rw [lookupDef, if_neg hname] at hl
          obtain ⟨cj, hget, hcomp⟩ := ih hrest hl
          refine ⟨cj, ?_, hcomp⟩
          rw [← hd]
          simp [dictGet, hname, hget]

end Opactx

namespace Opactx

/-- The compiled subtree at each walk position of a compiled node carries
`additionalProperties` reflecting the nearest-enclosing-strict rule,
threaded exactly like the compiler's `inherited_strict` parameter. -/
theorem compileNode_walk (steps : List WalkStep) :
    ∀ (n : DNode) (path : String) (inh : Bool) (cj : Json) (ae : Bool)
      (flds : List (String × Bool × DNode)) (nb : Bool),
      compileNode n path inh = .ok cj →
      walkNode n steps = some (.objN none ae flds nb) →
      ∃ ckvs, walkJson cj steps = some (.obj ckvs) ∧
        dictGet ckvs "additionalProperties" =
          some (.bool (!(nearestStrict (strictChain n steps) inh))) := by
  induction steps with
  | nil =>
    intro n path inh cj ae flds nb hc hw
    simp only [walkNode, Option.some.injEq] at hw
    subst hw
    obtain ⟨props, reqs, hf, rfl⟩ := compileNode_obj_inv hc
    refine ⟨_, rfl, ?_⟩
    simpa [strictChain, nearestStrict] using compiledObj_get_aP nb props reqs (!inh)
  | cons st rest ih =>
    intro n path inh cj ae flds nb hc hw
    cases st with
    | field name =>
      cases n with
      | ref rn => simp [walkNode] at hw
      | arrN it nb' => cases it <;> simp [walkNode] at hw
      | scalar t nb' => simp [walkNode] at hw
      | objN so ae' flds' nb' =>
        rw [walkNode] at hw
        cases hlf : lookupField flds' name with
        | none => rw [hlf] at hw; exact absurd hw (by simp)
        | some pr =>
          obtain ⟨req, fn⟩ := pr
          rw [hlf] at hw
          obtain ⟨props, reqs, hf, rfl⟩ := compileNode_obj_inv hc
          obtain ⟨cf, hcfget, hcf⟩ := compileFields_lookup hf hlf
          obtain ⟨ckvs, hwj, hget⟩ :=
            ih fn (path ++ ".fields." ++ name) (so.getD inh) cf ae flds nb hcf hw
          refine ⟨ckvs, ?_, ?_⟩
          · rw [walkJson, compiledObj_get_props]
            simp only [hcfget]
            exact hwj
          · rw [hget]
            rw [strictChain, hlf]
            rfl
    | items =>
      cases n with
      | ref rn => simp [walkNode] at hw
      | objN so ae' flds' nb' => simp [walkNode] at hw
      | scalar t nb' => simp [walkNode] at hw
      | arrN it nb' =>
        cases it with
        | none => simp [walkNode] at hw
        | some itn =>
          rw [walkNode] at hw
          obtain ⟨ci, hci, rfl⟩ := compileNode_arr_inv hc
          obtain ⟨ckvs, hwj, hget⟩ :=
            ih itn (path ++ ".items") inh ci ae flds nb hci hw
          refine ⟨ckvs, ?_, ?_⟩
          · rw [walkJson, compiledArr_get_items]
            exact hwj
          · rw [hget]
            rfl

end Opactx

namespace Opactx

theorem compileContextSchema_inv {doc : DDoc} {out : Json}
    (h : compileContextSchema doc = .ok out) :
    ∃ compiledRoot defsOut,
      (∃ rs rae rflds rnull, doc.schema = .objN rs rae rflds rnull) ∧
      compileNode doc.schema "schema" (doc.strict.getD true) = .ok compiledRoot ∧
      compileDefs doc.definitions (doc.strict.getD true) = .ok defsOut ∧
      out = .obj (dictUpdate
        [("$schema", .str "https://json-schema.org/draft/2020-12/schema"),
         ("title", .str (pyStrip doc.title)),
         ("description", .str (pyStrip doc.description)),
         ("x-opactx-id", .str (pyStrip doc.id)),
         ("x-opactx-root", .str (pyStrip doc.root))]
        (jsonObjKvs compiledRoot)
        ++ (if doc.definitions.isEmpty then [] else [("$defs", .obj defsOut)])) := by
  rw [compileContextSchema] at h
  split at h
  · exact absurd h (by simp)
  · split at h
    · exact absurd h (by simp)
    · split at h
      · exact absurd h (by simp)
      · split at h
        · exact absurd h (by simp)
        · split at h
          · exact absurd h (by simp)
          · split at h
            · next rs rae rflds rnull heqschema =>
              split at h
              · exact absurd h (by simp)
              · split at h
                · exact absurd h (by simp)
                · split at h
                  · exact absurd h (by simp)
                  · next compiledRoot heqroot =>
                    split at h
                    · exact absurd h (by simp)
                    · next defsOut heqdefs =>
                      simp only [Except.ok.injEq] at h
                      rw [heqschema]
                      exact ⟨compiledRoot, defsOut, ⟨_, _, _, _, rfl⟩,
                        heqroot, heqdefs, h.symm⟩
            · exact absurd h (by simp)

end Opactx

namespace Opactx

/-- No compiled node carries a `$defs` key and its key list has no
duplicates (needed to read fields through the top-level `dict.update`). -/
theorem compileNode_kvs_facts {n : DNode} {path : String} {inh : Bool} {cj : Json}
    (h : compileNode n path inh = .ok cj) :
    dictGet (jsonObjKvs cj) "$defs" = none ∧
    ((jsonObjKvs cj).map Prod.fst).Nodup := by
  cases n with
  | ref name =>
    rw [compileNode] at h
    simp only [Except.ok.injEq] at h
    subst h
    exact ⟨rfl, by show (["$ref"] : List String).Nodup; decide⟩
  | objN so ae flds nb =>
    obtain ⟨props, reqs, -, rfl⟩ := compileNode_obj_inv h
    constructor
    · cases nb <;> cases reqs <;> rfl
    · rw [jsonObjKvs, compiledObj_keys]
      cases reqs with
      | nil =>
        show (["type", "properties", "additionalProperties"] : List String).Nodup
        decide
      | cons a b =>
        show (["type", "properties", "required", "additionalProperties"] :
          List String).Nodup
        decide
  | arrN it nb =>
    cases it with
    | none => rw [compileNode] at h; exact absurd h (by simp)
    | some itn =>
      obtain ⟨ci, -, rfl⟩ := compileNode_arr_inv h
      cases nb <;> exact ⟨rfl, by show (["type", "items"] : List String).Nodup; decide⟩
  | scalar t nb =>
    rw [compileNode] at h
    split at h
    · simp only [Except.ok.injEq] at h
      subst h
      rw [jsonObjKvs]
      unfold widenNullable
      split
      · exact ⟨rfl, by show (["type"] : List String).Nodup; decide⟩
      · exact ⟨rfl, by show (["type"] : List String).Nodup; decide⟩
    · exact absurd h (by simp)

theorem walkJson_cons_field_congr {A B : Ctx} {nm : String} {rest : List WalkStep}
    (h : dictGet A "properties" = dictGet B "properties") :
    walkJson (.obj A) (.field nm :: rest) = walkJson (.obj B) (.field nm :: rest) := by
  rw [walkJson, walkJson, h]

/-- C3: for every compiled document and every object node with `strict`
unset — in the root schema or in a definition body — the compiled node
carries `additionalProperties: false` exactly when the nearest enclosing
object node's explicit `strict` (defaulting to the document's top-level
`strict`, itself defaulting to true) is true.  Definition bodies inherit
from the document's top-level `strict`. -/
theorem strict_inheritance (doc : DDoc) (out : Json)
    (hc : compileContextSchema doc = .ok out) :
    (∀ steps ae flds nb,
      walkNode doc.schema steps = some (.objN none ae flds nb) →
      ∃ ckvs, walkJson out steps = some (.obj ckvs) ∧
        dictGet ckvs "additionalProperties" =
          some (.bool (!(nearestStrict (strictChain doc.schema steps)
            (doc.strict.getD true))))) ∧
    (∀ defName defNode steps ae flds nb,
      lookupDef doc.definitions defName = some defNode →
      walkNode defNode steps = some (.objN none ae flds nb) →
      ∃ defsKvs cdef ckvs,
        dictGet (jsonObjKvs out) "$defs" = some (.obj defsKvs) ∧
        dictGet defsKvs defName = some cdef ∧
        walkJson cdef steps = some (.obj ckvs) ∧
        dictGet ckvs "additionalProperties" =
          some (.bool (!(nearestStrict (strictChain defNode steps)
            (doc.strict.getD true))))) := by
  obtain ⟨compiledRoot, defsOut, ⟨rs, rae, rflds, rnull, hshape⟩, hroot, hdefs, hout⟩ :=
    compileContextSchema_inv hc
  have hfacts := compileNode_kvs_facts hroot
  have hbridge : ∀ k : String,
      dictGet [("$schema", Json.str "https://json-schema.org/draft/2020-12/schema"),
         ("title", .str (pyStrip doc.title)),
         ("description", .str (pyStrip doc.description)),
         ("x-opactx-id", .str (pyStrip doc.id)),
         ("x-opactx-root", .str (pyStrip doc.root))] k = none →
      dictGet (jsonObjKvs out) k =
        match dictGet (jsonObjKvs compiledRoot) k with
        | some v => some v
        | none => dictGet (if doc.definitions.isEmpty then []
            else [("$defs", Json.obj defsOut)]) k := by
    intro k hbase
    rw [hout, jsonObjKvs, dictGet_append,
      dictGet_dictUpdate_nodup _ _ _ hfacts.2 hbase]
  constructor
  · intro steps ae flds nb hw
    cases steps with
    | nil =>
      simp only [walkNode, Option.some.injEq] at hw
      rw [hw] at hroot
      obtain ⟨props, reqs, hf, hcr⟩ := compileNode_obj_inv hroot
      have hone : dictGet (jsonObjKvs out) "additionalProperties"
          = some (Json.bool (!((none : Option Bool).getD (doc.strict.getD true)))) := by
        rw [hbridge "additionalProperties" rfl, hcr]
        simp only [jsonObjKvs]
        rw [compiledObj_get_aP]
      refine ⟨jsonObjKvs out, ?_, ?_⟩
      · rw [hout]
        rfl
      · show dictGet (jsonObjKvs out) "additionalProperties" = _
        rw [hone, hw]
        simp [strictChain, nearestStrict]
    | cons st rest =>
      cases st with
      | items => rw [hshape] at hw; simp [walkNode] at hw
      | field name =>
        obtain ⟨ckvs, hwj, hget⟩ :=
          compileNode_walk (WalkStep.field name :: rest) doc.schema "schema"
            (doc.strict.getD true) compiledRoot ae flds nb hroot hw
        refine ⟨ckvs, ?_, hget⟩
        rw [hshape] at hroot
        obtain ⟨props, reqs, hf, hcr⟩ := compileNode_obj_inv hroot
        have hone : dictGet (jsonObjKvs out) "properties" = some (.obj props) := by
          rw [hbridge "properties" rfl, hcr]
          simp only [jsonObjKvs]
          rw [compiledObj_get_props]
        have hstep : walkJson out (WalkStep.field name :: rest)
            = walkJson compiledRoot (WalkStep.field name :: rest) := by
          rw [hout, hcr]
          refine walkJson_cons_field_congr ?_
          rw [compiledObj_get_props]
          have h2 := hone
          rw [hout, hcr] at h2
          exact h2
        rw [hstep]
        exact hwj
  · intro defName defNode steps ae flds nb hld hw
    have hne : doc.definitions.isEmpty = false := by
      cases hdefn : doc.definitions with
      | nil => rw [hdefn] at hld; simp [lookupDef] at hld
      | cons a b => simp [hdefn]
    have hdefsget : dictGet (jsonObjKvs out) "$defs" = some (.obj defsOut) := by
      rw [hbridge "$defs" rfl, hfacts.1, hne]
      rfl
    obtain ⟨cdef, hcget, hcomp⟩ := compileDefs_lookup hdefs hld
    obtain ⟨ckvs, hwj, hget⟩ :=
      compileNode_walk steps defNode ("definitions." ++ defName)
        (doc.strict.getD true) cdef ae flds nb hcomp hw
    exact ⟨defsOut, cdef, ckvs, hdefsget, hcget, hwj, hget⟩

end Opactx

namespace Opactx

/-- C3 (witness): a document with top-level `strict` unset (default true)
whose root sets `strict: false`; the nested `sub` object leaves `strict`
unset, so its compiled node carries `additionalProperties: true`. -/
theorem strict_inheritance_witness :
    compileContextSchema
        ⟨"opactx.schema/v1", "i", "t", "d", "r", none,
          .objN (some false) false
            [("sub", false, .objN none false [("x", false, .scalar "string" false)] false)]
            false, []⟩ =
      .ok (.obj [("$schema", .str "https://json-schema.org/draft/2020-12/schema"),
        ("title", .str "t"), ("description", .str "d"), ("x-opactx-id", .str "i"),
        ("x-opactx-root", .str "r"), ("type", .str "object"),
        ("properties", .obj [("sub", .obj [("type", .str "object"),
          ("properties", .obj [("x", .obj [("type", .str "string")])]),
          ("additionalProperties", .bool true)])]),
        ("additionalProperties", .bool true)]) ∧
    walkNode
        (.objN (some false) false
          [("sub", false, .objN none false [("x", false, .scalar "string" false)] false)]
          false)
        [.field "sub"]
      = some (.objN none false [("x", false, .scalar "string" false)] false) ∧
    ∃ ckvs,
      walkJson (.obj [("$schema", .str "https://json-schema.org/draft/2020-12/schema"),
          ("title", .str "t"), ("description", .str "d"), ("x-opactx-id", .str "i"),
          ("x-opactx-root", .str "r"), ("type", .str "object"),
          ("properties", .obj [("sub", .obj [("type", .str "object"),
            ("properties", .obj [("x", .obj [("type", .str "string")])]),
            ("additionalProperties", .bool true)])]),
          ("additionalProperties", .bool true)]) [.field "sub"] = some (.obj ckvs) ∧
      dictGet ckvs "additionalProperties" =
        some (.bool (!(nearestStrict
          (strictChain (.objN (some false) false
            [("sub", false, .objN none false [("x", false, .scalar "string" false)] false)]
            false) [.field "sub"])
          ((none : Option Bool).getD true)))) := by
  have hcomp : compileContextSchema
      ⟨"opactx.schema/v1", "i", "t", "d", "r", none,
        .objN (some false) false
          [("sub", false, .objN none false [("x", false, .scalar "string" false)] false)]
          false, []⟩ =
      .ok (.obj [("$schema", .str "https://json-schema.org/draft/2020-12/schema"),
        ("title", .str "t"), ("description", .str "d"), ("x-opactx-id", .str "i"),
        ("x-opactx-root", .str "r"), ("type", .str "object"),
        ("properties", .obj [("sub", .obj [("type", .str "object"),
          ("properties", .obj [("x", .obj [("type", .str "string")])]),
          ("additionalProperties", .bool true)])]),
        ("additionalProperties", .bool true)]) := by
    simp [compileContextSchema, validateRefs, compileNode, compileFields, compileDefs,
      collectRefs, collectRefsFields, firstNotIn, firstDanglingInDefs, dfsList,
      isortLe, dictUpdate, dictSet, widenNullable, dslVersionLiteral,
      trimChars, pyStrip, jsonObjKvs, scalarTypes]
  exact ⟨hcomp, rfl,
    (strict_inheritance _ _ hcomp).1 [.field "sub"] false
      [("x", false, .scalar "string" false)] false rfl⟩

end Opactx

namespace Opactx

/-! ### C8: determinism of compilation -/

/-- C8: compilation is a pure function of the document — two runs on the
same definitions-free document produce equal compiled schemas, hence
byte-identical stable serializations. -/
theorem compile_deterministic (doc : DDoc) (r1 r2 : Json)
    (hdefs : doc.definitions = [])
    (h1 : compileContextSchema doc = .ok r1)
    (h2 : compileContextSchema doc = .ok r2) :
    r1 = r2 ∧ stableJsonText r1 = stableJsonText r2 := by
  rw [h1] at h2
  simp only [Except.ok.injEq] at h2
  exact ⟨h2, by rw [h2]⟩

/-- C8 (witness): two runs on a concrete definitions-free document. -/
theorem compile_deterministic_witness :
    (⟨"opactx.schema/v1", "i", "t", "d", "r", none,
      .objN none false [("env", true, .scalar "string" false)] false, []⟩ : DDoc).definitions
      = [] ∧
    compileContextSchema
        ⟨"opactx.schema/v1", "i", "t", "d", "r", none,
          .objN none false [("env", true, .scalar "string" false)] false, []⟩ =
      .ok (.obj [("$schema", .str "https://json-schema.org/draft/2020-12/schema"),
        ("title", .str "t"), ("description", .str "d"), ("x-opactx-id", .str "i"),
        ("x-opactx-root", .str "r"), ("type", .str "object"),
        ("properties", .obj [("env", .obj [("type", .str "string")])]),
        ("required", .arr [.str "env"]),
        ("additionalProperties", .bool false)]) ∧
    stableJsonText (.obj [("$schema", .str "https://json-schema.org/draft/2020-12/schema"),
        ("title", .str "t"), ("description", .str "d"), ("x-opactx-id", .str "i"),
        ("x-opactx-root", .str "r"), ("type", .str "object"),
        ("properties", .obj [("env", .obj [("type", .str "string")])]),
        ("required", .arr [.str "env"]),
        ("additionalProperties", .bool false)]) =
      stableJsonText (.obj [("$schema", .str "https://json-schema.org/draft/2020-12/schema"),
        ("title", .str "t"), ("description", .str "d"), ("x-opactx-id", .str "i"),
        ("x-opactx-root", .str "r"), ("type", .str "object"),
        ("properties", .obj [("env", .obj [("type", .str "string")])]),
        ("required", .arr [.str "env"]),
        ("additionalProperties", .bool false)]) := by
  have hcomp : compileContextSchema
      ⟨"opactx.schema/v1", "i", "t", "d", "r", none,
        .objN none false [("env", true, .scalar "string" false)] false, []⟩ =
      .ok (.obj [("$schema", .str "https://json-schema.org/draft/2020-12/schema"),
        ("title", .str "t"), ("description", .str "d"), ("x-opactx-id", .str "i"),
        ("x-opactx-root", .str "r"), ("type", .str "object"),
        ("properties", .obj [("env", .obj [("type", .str "string")])]),
        ("required", .arr [.str "env"]),
        ("additionalProperties", .bool false)]) := by
    simp [compileContextSchema, validateRefs, compileNode, compileFields, compileDefs,
      collectRefs, collectRefsFields, firstNotIn, firstDanglingInDefs, dfsList,
      isortLe, dictUpdate, dictSet, widenNullable, dslVersionLiteral,
      trimChars, pyStrip, jsonObjKvs, scalarTypes]
  exact ⟨rfl, hcomp, (compile_deterministic _ _ _ rfl hcomp hcomp).2⟩

end Opactx

namespace Opactx

/-! ### C4: reference-cycle detection -/

theorem lookupVisit_setVisit_self (vs : List (String × Nat)) (k : String) (n : Nat) :
    lookupVisit (setVisit vs k n) k = n := by
  induction vs with
  | nil => simp [setVisit, lookupVisit]
  | cons hd tl ih =>
    obtain ⟨k', n'⟩ := hd
    by_cases h : k' = k
    · simp [setVisit, lookupVisit, h]
    · simp [setVisit, lookupVisit, h, ih]

theorem lookupVisit_setVisit_ne (vs : List (String × Nat)) (k k' : String) (n : Nat)
    (h : k ≠ k') : lookupVisit (setVisit vs k n) k' = lookupVisit vs k' := by
  induction vs with
  | nil => simp [setVisit, lookupVisit, h]
  | cons hd tl ih =>
    obtain ⟨k0, n0⟩ := hd
    by_cases h0 : k0 = k
    · subst h0
      simp [setVisit, lookupVisit, h]
    · simp [setVisit, lookupVisit, h0, ih]

theorem beforeIn_append {α : Type} [DecidableEq α] {l : List α} (δ : List α)
    {v u : α} (h : beforeIn l v u) : beforeIn (l ++ δ) v u := by
  obtain ⟨hv, hu, hlt⟩ := h
  exact ⟨List.mem_append_left δ hv, List.mem_append_left δ hu,
    by rw [List.indexOf_append_of_mem hv, List.indexOf_append_of_mem hu]; exact hlt⟩

theorem beforeIn_concat {α : Type} [DecidableEq α] {l : List α} {v u : α}
    (hv : v ∈ l) (hu : u ∉ l) : beforeIn (l ++ [u]) v u := by
  refine ⟨List.mem_append_left _ hv, List.mem_append_right _ (by simp), ?_⟩
  rw [List.indexOf_append_of_mem hv, List.indexOf_append_of_not_mem hu]
  calc List.indexOf v l < l.length := List.indexOf_lt_length.mpr hv
    _ ≤ l.length + List.indexOf u [u] := Nat.le_add_right _ _

theorem beforeIn_trans {α : Type} [DecidableEq α] {l : List α} {a b c : α}
    (h1 : beforeIn l a b) (h2 : beforeIn l b c) : beforeIn l a c :=
  ⟨h1.1, h2.2.1, lt_trans h1.2.2 h2.2.2⟩

theorem beforeIn_irrefl {α : Type} [DecidableEq α] {l : List α} {a : α}
    (h : beforeIn l a a) : False := lt_irrefl _ h.2.2

theorem filter_length_mono {α : Type} (p q : α → Bool) (l : List α)
    (h : ∀ x, q x = true → p x = true) :
    (l.filter q).length ≤ (l.filter p).length := by
  induction l with
  | nil => simp
  | cons a t ih =>
    by_cases hq : q a = true
    · simp only [List.filter, hq, h a hq, List.length_cons]
      omega
    · rw [List.filter, List.filter]
      rw [Bool.not_eq_true] at hq
      rw [hq]
      cases hp : p a
      · exact ih
      · simp only [List.length_cons]
        omega

theorem filter_length_lt {α : Type} (p q : α → Bool) (l : List α) (a : α)
    (ha : a ∈ l) (hpa : p a = true) (hqa : q a = false)
    (himp : ∀ x, q x = true → p x = true) :
    (l.filter q).length < (l.filter p).length := by
  induction l with
  | nil => simp at ha
  | cons b t ih =>
    rcases List.mem_cons.mp ha with rfl | hat
    · rw [List.filter, List.filter, hqa, hpa]
      simp only [List.length_cons]
      exact Nat.lt_succ_of_le (filter_length_mono p q t himp)
    · rw [List.filter, List.filter]
      cases hq : q b
      · cases hp : p b
        · exact ih hat
        · exact Nat.lt_succ_of_lt (ih hat)
      · rw [himp b hq]
        simpa using ih hat

theorem firstNotIn_eq_none (names univ : List String)
    (h : ∀ n ∈ names, univ.contains n = true) : firstNotIn names univ = none := by
  induction names with
  | nil => rfl
  | cons n rest ih =>
    rw [firstNotIn, if_pos (h n (List.mem_cons_self n rest))]
    exact ih (fun m hm => h m (List.mem_cons_of_mem n hm))

theorem firstDanglingInDefs_eq_none (defs : List (String × DNode)) (univ : List String)
    (h : ∀ p ∈ defs, ∀ r ∈ collectRefs p.2, univ.contains r = true) :
    firstDanglingInDefs defs univ = none := by
  induction defs with
  | nil => rfl
  | cons p rest ih =>
    rw [firstDanglingInDefs,
      firstNotIn_eq_none _ _ (h p (List.mem_cons_self p rest))]
    exact ih (fun q hq => h q (List.mem_cons_of_mem p hq))

theorem graphChildren_sub (defs : List (String × DNode)) (u v : String)
    (h : v ∈ graphChildren (defs.map (fun p => (p.1, collectRefs p.2))) u) :
    ∃ p ∈ defs, p.1 = u ∧ v ∈ collectRefs p.2 := by
  induction defs with
  | nil => simp [graphChildren] at h
  | cons p rest ih =>
    rw [List.map_cons, graphChildren] at h
    by_cases hp : p.1 = u
    · rw [if_pos hp] at h
      exact ⟨p, List.mem_cons_self p rest, hp, h⟩
    · rw [if_neg hp] at h
      obtain ⟨q, hq, hqu, hqv⟩ := ih h
      exact ⟨q, List.mem_cons_of_mem p hq, hqu, hqv⟩

theorem graphChildren_source_mem (g : List (String × List String)) (u v : String)
    (h : v ∈ graphChildren g u) : u ∈ g.map Prod.fst := by
  induction g with
  | nil => simp [graphChildren] at h
  | cons p rest ih =>
    rw [graphChildren] at h
    by_cases hp : p.1 = u
    · simp [hp]
    · rw [if_neg hp] at h
      exact List.mem_cons_of_mem _ (ih h)

theorem dfsStep_refl (g : List (String × List String)) (st : DfsSt)
    (hInv : DfsInv g st) : DfsStep g st st :=
  ⟨hInv, fun _ => Iff.rfl, ⟨[], by simp⟩, rfl⟩

theorem dfsStep_trans {g : List (String × List String)} {st1 st2 st3 : DfsSt}
    (h1 : DfsStep g st1 st2) (h2 : DfsStep g st2 st3) : DfsStep g st1 st3 := by
  obtain ⟨hi1, hg1, ⟨d1, hd1⟩, hs1⟩ := h1
  obtain ⟨hi2, hg2, ⟨d2, hd2⟩, hs2⟩ := h2
  exact ⟨hi2, fun x => (hg2 x).trans (hg1 x),
    ⟨d1 ++ d2, by rw [hd2, hd1, List.append_assoc]⟩, hs2.trans hs1⟩

theorem dfsStep_blacks_mono {g : List (String × List String)} {st st' : DfsSt}
    (h : DfsStep g st st') : ∀ x ∈ st.blacks, x ∈ st'.blacks := by
  obtain ⟨-, -, ⟨δ, hδ⟩, -⟩ := h
  intro x hx
  rw [hδ]
  exact List.mem_append_left δ hx

theorem dfsStep_white_mono {g : List (String × List String)} {st st' : DfsSt}
    (hInv : DfsInv g st) (h : DfsStep g st st') :
    ∀ x, (!(lookupVisit st'.visit x == 1) && !(lookupVisit st'.visit x == 2)) = true →
      (!(lookupVisit st.visit x == 1) && !(lookupVisit st.visit x == 2)) = true := by
  intro x hx
  simp only [Bool.and_eq_true, Bool.not_eq_true', beq_eq_false_iff_ne] at hx ⊢
  refine ⟨fun h1 => hx.1 ((h.2.1 x).mpr h1), fun h2 => ?_⟩
  have hxb : x ∈ st.blacks := (hInv.1 x).mp h2
  exact hx.2 ((h.1.1 x).mpr (dfsStep_blacks_mono h x hxb))

end Opactx

namespace Opactx

/-- Success analysis of the three-color DFS: a successful call maintains
the invariant, leaves the in-progress set and the stack unchanged, only
appends blackened nodes, and blackens its argument (resp. every start
node). -/
theorem dfs_ok_spec (g : List (String × List String)) :
    ∀ fuel : Nat,
      (∀ name st st', dfsNode g fuel name st = .ok st' → DfsInv g st →
        DfsStep g st st' ∧ name ∈ st'.blacks) ∧
      (∀ cs st st', dfsList g fuel cs st = .ok st' → DfsInv g st →
        DfsStep g st st' ∧ ∀ c ∈ cs, c ∈ st'.blacks) := by
  intro fuel
  induction fuel with
  | zero =>
    constructor
    · intro name st st' h hInv
      simp [dfsNode] at h
    · intro cs st st' h hInv
      cases cs with
      | nil =>
        rw [dfsList] at h
        simp only [Except.ok.injEq] at h
        subst h
        exact ⟨dfsStep_refl g st hInv, by simp⟩
      | cons c cs' => simp [dfsList, dfsNode] at h
  | succ fuel ih =>
    have hnode : ∀ name st st', dfsNode g (fuel + 1) name st = .ok st' → DfsInv g st →
        DfsStep g st st' ∧ name ∈ st'.blacks := by
      intro name st st' h hInv
      rw [dfsNode] at h
      split at h
      · exact absurd h (by simp)
      · next x heq2 =>
        simp only [Except.ok.injEq] at h
        subst h
        exact ⟨dfsStep_refl g st hInv, (hInv.1 name).mp heq2⟩
      · next w hne1 hne2 =>
        have hne1' : lookupVisit st.visit name ≠ 1 := fun hx => hne1 hx
        have hne2' : lookupVisit st.visit name ≠ 2 := fun hx => hne2 hx
        have hnb : name ∉ st.blacks := fun hm => hne2' ((hInv.1 name).mpr hm)
        have hInv1 : DfsInv g ⟨setVisit st.visit name 1, st.stack ++ [name], st.blacks⟩ := by
          refine ⟨?_, hInv.2.1, hInv.2.2⟩
          intro x
          by_cases hx : name = x
          · subst hx
            rw [lookupVisit_setVisit_self]
            simp only [OfNat.one_ne_ofNat, false_iff]
            exact hnb
          · rw [lookupVisit_setVisit_ne _ _ _ _ hx]
            exact hInv.1 x
        cases hrun : dfsList g fuel (graphChildren g name)
            ⟨setVisit st.visit name 1, st.stack ++ [name], st.blacks⟩ with
        | error e => rw [hrun] at h; exact absurd h (by simp)
        | ok st2 =>
          rw [hrun] at h
          simp only [Except.ok.injEq] at h
          obtain ⟨hstep1, hkids⟩ := (ih.2) (graphChildren g name) _ st2 hrun hInv1
          have hgray2 : lookupVisit st2.visit name = 1 := by
            rw [hstep1.2.1 name]
            exact lookupVisit_setVisit_self _ _ _
          have hnb2 : name ∉ st2.blacks := fun hm => by
            have := (hstep1.1.1 name).mpr hm
            rw [hgray2] at this
            exact absurd this (by simp)
          have hstack2 : st2.stack = st.stack ++ [name] := hstep1.2.2.2
          obtain ⟨δ2, hδ2⟩ : ∃ δ, st2.blacks = st.blacks ++ δ := hstep1.2.2.1
          have hInv' : DfsInv g ⟨setVisit st2.visit name 2, st2.stack.dropLast,
              st2.blacks ++ [name]⟩ := by
            refine ⟨?_, ?_, ?_⟩
            · intro x
              by_cases hx : name = x
              · subst hx
                rw [lookupVisit_setVisit_self]
                simp
              · rw [lookupVisit_setVisit_ne _ _ _ _ hx]
                rw [hstep1.1.1 x]
                simp only [List.mem_append, List.mem_singleton]
                constructor
                · exact Or.inl
                · rintro (hm | rfl)
                  · exact hm
                  · exact absurd rfl hx
            · refine List.nodup_append.mpr ⟨hstep1.1.2.1, List.nodup_singleton name, ?_⟩
              intro a ha hb
              rw [List.mem_singleton] at hb
              subst hb
              exact hnb2 ha
            · intro u hu v hv
              rcases List.mem_append.mp hu with hu' | hu'
              · exact beforeIn_append [name] (hstep1.1.2.2 u hu' v hv)
              · rw [List.mem_singleton] at hu'
                subst hu'
                exact beforeIn_concat (hkids v hv) hnb2
          rw [← h]
          refine ⟨⟨hInv', ?_, ?_, ?_⟩, ?_⟩
          · intro x
            by_cases hx : name = x
            · subst hx
              rw [lookupVisit_setVisit_self]
              simp only [OfNat.ofNat_ne_one, false_iff]
              exact hne1'
            · rw [lookupVisit_setVisit_ne _ _ _ _ hx, hstep1.2.1 x,
                lookupVisit_setVisit_ne _ _ _ _ hx]
          · exact ⟨δ2 ++ [name], by simp [hδ2]⟩
          · show st2.stack.dropLast = st.stack
            rw [hstack2, List.dropLast_concat]
          · show name ∈ st2.blacks ++ [name]
            simp
    refine ⟨hnode, ?_⟩
    intro cs
    induction cs with
    | nil =>
      intro st st' h hInv
      rw [dfsList] at h
      simp only [Except.ok.injEq] at h
      subst h
      exact ⟨dfsStep_refl g st hInv, by simp⟩
    | cons c cs' ihc =>
      intro st st' h hInv
      rw [dfsList] at h
      cases hm : dfsNode g (fuel + 1) c st with
      | error e => rw [hm] at h; exact absurd h (by simp)
      | ok stm =>
        rw [hm] at h
        obtain ⟨hstep1, hc⟩ := hnode c st stm hm hInv
        obtain ⟨hstep2, hcs⟩ := ihc stm st' h hstep1.1
        refine ⟨dfsStep_trans hstep1 hstep2, ?_⟩
        intro d hd
        rcases List.mem_cons.mp hd with rfl | hd'
        · exact dfsStep_blacks_mono hstep2 d hc
        · exact hcs d hd'

end Opactx

namespace Opactx

theorem of_firstNotIn_eq_none (names univ : List String)
    (h : firstNotIn names univ = none) : ∀ r ∈ names, r ∈ univ := by
  induction names with
  | nil => intro r hr; simp at hr
  | cons n rest ih =>
    rw [firstNotIn] at h
    by_cases hc : univ.contains n = true
    · rw [if_pos hc] at h
      intro r hr
      rcases List.mem_cons.mp hr with rfl | hr'
      · simpa using hc
      · exact ih h r hr'
    · rw [if_neg hc] at h
      simp at h

theorem of_firstDanglingInDefs_eq_none (defs : List (String × DNode))
    (univ : List String) (h : firstDanglingInDefs defs univ = none) :
    ∀ p ∈ defs, ∀ r ∈ collectRefs p.2, r ∈ univ := by
  induction defs with
  | nil => intro p hp; simp at hp
  | cons q rest ih =>
    rw [firstDanglingInDefs] at h
    cases hfn : firstNotIn (collectRefs q.2) univ with
    | some r => rw [hfn] at h; simp at h
    | none =>
      rw [hfn] at h
      intro p hp r hr
      rcases List.mem_cons.mp hp with rfl | hp'
      · exact of_firstNotIn_eq_none _ _ hfn r hr
      · exact ih h p hp' r hr

/-- With all definition-body references resolving, the reference graph's
edges stay inside the definition names. -/
theorem graph_closed_of_no_dangling (defs : List (String × DNode))
    (h : firstDanglingInDefs defs (defs.map Prod.fst) = none) :
    ∀ u v, v ∈ graphChildren (defs.map fun p => (p.1, collectRefs p.2)) u →
      v ∈ defs.map Prod.fst := by
  intro u v hv
  obtain ⟨p, hp, -, hpv⟩ := graphChildren_sub defs u v hv
  exact of_firstDanglingInDefs_eq_none defs _ h p hp v hpv

/-- The recursion bound: with fuel exceeding the number of definition
names not already on the gray stack, the DFS never exhausts its fuel
(the gray stack is duplicate-free and drawn from the definition names,
so its depth is bounded). -/
theorem dfs_no_fuelOut (g : List (String × List String)) (univ : List String)
    (hclosed : ∀ u v, v ∈ graphChildren g u → v ∈ univ) :
    ∀ fuel : Nat,
      (∀ name st, name ∈ univ → StackInv univ st → DfsInv g st →
        univ.length + 1 ≤ fuel + st.stack.length →
        dfsNode g fuel name st ≠ .error .fuelOut) ∧
      (∀ cs st, (∀ c ∈ cs, c ∈ univ) → StackInv univ st → DfsInv g st →
        univ.length + 1 ≤ fuel + st.stack.length →
        dfsList g fuel cs st ≠ .error .fuelOut) := by
  have hlen : ∀ st : DfsSt, StackInv univ st → st.stack.length ≤ univ.length := by
    intro st hS
    exact (List.subperm_of_subset hS.1 (fun x hx => hS.2.1 x hx)).length_le
  intro fuel
  induction fuel with
  | zero =>
    constructor
    · intro name st _ hS _ hle
      exact absurd hle (by have := hlen st hS; omega)
    · intro cs st _ hS _ hle
      exact absurd hle (by have := hlen st hS; omega)
  | succ fuel ih =>
    have hnode : ∀ name st, name ∈ univ → StackInv univ st → DfsInv g st →
        univ.length + 1 ≤ (fuel + 1) + st.stack.length →
        dfsNode g (fuel + 1) name st ≠ .error .fuelOut := by
      intro name st hn hS hI hle h
      rw [dfsNode] at h
      split at h
      · simp at h
      · simp at h
      · next w hne1 hne2 =>
        have hng : name ∉ st.stack := fun hm => hne1 ((hS.2.2 name).mpr hm)
        have hnb : name ∉ st.blacks := fun hm => hne2 ((hI.1 name).mpr hm)
        have hS1 : StackInv univ ⟨setVisit st.visit name 1, st.stack ++ [name], st.blacks⟩ := by
          refine ⟨?_, ?_, ?_⟩
          · refine List.nodup_append.mpr ⟨hS.1, List.nodup_singleton name, ?_⟩
            intro a ha hb
            rw [List.mem_singleton] at hb
            subst hb
            exact hng ha
          · intro x hx
            rcases List.mem_append.mp hx with hx' | hx'
            · exact hS.2.1 x hx'
            · rw [List.mem_singleton] at hx'
              subst hx'
              exact hn
          · intro x
            by_cases hx : name = x
            · subst hx
              rw [lookupVisit_setVisit_self]
              simp
            · rw [lookupVisit_setVisit_ne _ _ _ _ hx]
              rw [hS.2.2 x]
              simp only [List.mem_append, List.mem_singleton]
              constructor
              · exact Or.inl
              · rintro (hm | rfl)
                · exact hm
                · exact absurd rfl hx
        have hI1 : DfsInv g ⟨setVisit st.visit name 1, st.stack ++ [name], st.blacks⟩ := by
          refine ⟨?_, hI.2.1, hI.2.2⟩
          intro x
          by_cases hx : name = x
          · subst hx
            rw [lookupVisit_setVisit_self]
            simp only [OfNat.one_ne_ofNat, false_iff]
            exact hnb
          · rw [lookupVisit_setVisit_ne _ _ _ _ hx]
            exact hI.1 x
        cases hrun : dfsList g fuel (graphChildren g name)
            ⟨setVisit st.visit name 1, st.stack ++ [name], st.blacks⟩ with
        | error e =>
          rw [hrun] at h
          simp only [Except.error.injEq] at h
          subst h
          refine ih.2 (graphChildren g name) _ (fun c hc => hclosed name c hc) hS1 hI1 ?_ hrun
          simp only [List.length_append, List.length_singleton]
          omega
        | ok st2 =>
          rw [hrun] at h
          simp at h
    refine ⟨hnode, ?_⟩
    intro cs
    induction cs with
    | nil =>
      intro st _ _ _ _ h
      rw [dfsList] at h
      simp at h
    | cons c cs' ihc =>
      intro st hcs hS hI hle h
      rw [dfsList] at h
      cases hm : dfsNode g (fuel + 1) c st with
      | error e =>
        rw [hm] at h
        simp only [Except.error.injEq] at h
        subst h
        exact hnode c st (hcs c (List.mem_cons_self c cs')) hS hI hle hm
      | ok stm =>
        rw [hm] at h
        obtain ⟨hstep, -⟩ := (dfs_ok_spec g (fuel + 1)).1 c st stm hm hI
        have hS' : StackInv univ stm := by
          refine ⟨?_, ?_, ?_⟩
          · rw [hstep.2.2.2]
            exact hS.1
          · rw [hstep.2.2.2]
            exact hS.2.1
          · intro x
            rw [hstep.2.1 x, hstep.2.2.2]
            exact hS.2.2 x
        have hle' : univ.length + 1 ≤ (fuel + 1) + stm.stack.length := by
          rw [hstep.2.2.2]
          exact hle
        exact ihc stm (fun d hd => hcs d (List.mem_cons_of_mem c hd)) hS' hstep.1 hle' h

end Opactx

namespace Opactx

/-- When every reference resolves and the definitions reference graph has
a cycle, `_validate_references` reports a cycle message: the DFS cannot
run out of fuel, and it cannot succeed, since success would blacken every
definition in an order placing each node's children strictly before it,
which no cycle admits. -/
theorem validateRefs_cycle_error (rootSchema : DNode) (defs : List (String × DNode))
    (hd1 : firstNotIn (collectRefs rootSchema) (defs.map Prod.fst) = none)
    (hd2 : firstDanglingInDefs defs (defs.map Prod.fst) = none)
    (hcyc : hasRefCycle (defs.map fun p => (p.1, collectRefs p.2))) :
    ∃ path, validateRefs rootSchema defs = .error (cycleMessage path) := by
  have hInit : DfsInv (defs.map fun p => (p.1, collectRefs p.2)) ⟨[], [], []⟩ := by
    refine ⟨?_, by simp, by simp⟩
    intro x
    simp [lookupVisit]
  simp only [validateRefs, hd1, hd2]
  cases hrun : dfsList (defs.map fun p => (p.1, collectRefs p.2)) (defs.length + 1)
      (isortLe strLeB (defs.map Prod.fst)) ⟨[], [], []⟩ with
  | ok st' =>
    exfalso
    obtain ⟨hstep, hall⟩ :=
      (dfs_ok_spec (defs.map fun p => (p.1, collectRefs p.2)) (defs.length + 1)).2
        _ _ st' hrun hInit
    obtain ⟨n, htg⟩ := hcyc
    have hnU : n ∈ defs.map Prod.fst := by
      obtain ⟨c, hedge, -⟩ := Relation.TransGen.head'_iff.mp htg
      have := graphChildren_source_mem _ _ _ hedge
      simpa [List.map_map, Function.comp] using this
    have hnB : n ∈ st'.blacks := by
      refine hall n ?_
      exact (isortLe_perm strLeB (defs.map Prod.fst)).mem_iff.mpr hnU
    have hkey : ∀ a b, Relation.TransGen
        (graphEdge (defs.map fun p => (p.1, collectRefs p.2))) a b →
        a ∈ st'.blacks → beforeIn st'.blacks b a := by
      intro a b htg' ha
      induction htg' with
      | single hedge => exact hstep.1.2.2 a ha _ hedge
      | tail htg1 hedge ih =>
        have h1 := ih
        have h2 := hstep.1.2.2 _ h1.1 _ hedge
        exact beforeIn_trans h2 h1
    exact beforeIn_irrefl (hkey n n htg hnB)
  | error e =>
    cases e with
    | cycle path => exact ⟨path, rfl⟩
    | fuelOut =>
      exfalso
      refine (dfs_no_fuelOut (defs.map fun p => (p.1, collectRefs p.2))
          (defs.map Prod.fst) ?_ (defs.length + 1)).2 _ _ ?_ ?_ hInit ?_ hrun
      · intro u v hv
        exact graph_closed_of_no_dangling defs hd2 u v hv
      · intro c hc
        exact (isortLe_perm strLeB (defs.map Prod.fst)).mem_iff.mp hc
      · exact ⟨by simp, by simp, fun x => by simp [lookupVisit]⟩
      · simp

end Opactx

namespace Opactx

/-- C4 (amended): for a document that passes the version, header and
definition-name checks, whose root is an object node, and **whose
references all resolve**, a cycle in the definitions reference graph
makes compilation fail with the `Reference cycle detected` message built
by joining the cycle path with `->` — the hypotheses say nothing about
the definition bodies compiling, so the check settles the result before
any node is compiled; and on the spec's two-node mutual cycle (`A.fields.b`
references `B`, `B.fields.a` references `A`) the message is exactly
`Reference cycle detected: A -> B -> A`, naming both definitions. -/
theorem reference_cycle_detected :
    (∀ doc : DDoc,
      doc.dslVersion = dslVersionLiteral →
      trimChars doc.id.data ≠ [] →
      trimChars doc.title.data ≠ [] →
      trimChars doc.description.data ≠ [] →
      trimChars doc.root.data ≠ [] →
      (∃ rs rae rflds rnull, doc.schema = .objN rs rae rflds rnull) →
      (doc.definitions.map Prod.fst).any (fun n => n = "") = false →
      firstNotIn (collectRefs doc.schema) (doc.definitions.map Prod.fst) = none →
      firstDanglingInDefs doc.definitions (doc.definitions.map Prod.fst) = none →
      hasRefCycle (doc.definitions.map fun p => (p.1, collectRefs p.2)) →
      ∃ path, compileContextSchema doc = .error (cycleMessage path) ∧
        containsStr (cycleMessage path) "Reference cycle detected") ∧
    compileContextSchema docTwoCycle =
      .error "Reference cycle detected: A -> B -> A" := by
  constructor
  · intro doc hv h2 h3 h4 h5 hsex hnames hd1 hd2 hcyc
    obtain ⟨rs, rae, rflds, rnull, hs⟩ := hsex
    obtain ⟨path, hvr⟩ := validateRefs_cycle_error doc.schema doc.definitions hd1 hd2 hcyc
    rw [hs] at hvr
    refine ⟨path, ?_, ?_⟩
    · rw [compileContextSchema]
      rw [if_neg (fun hne => hne hv), if_neg h2, if_neg h3, if_neg h4, if_neg h5]
      simp only [hs, hnames, Bool.false_eq_true, if_false, hvr]
    · exact ⟨[], ": ".data ++ joinWith " -> ".data (path.map String.data), rfl⟩
  · simp [compileContextSchema, validateRefs, firstNotIn, firstDanglingInDefs,
      collectRefs, collectRefsFields, dfsNode, dfsList, lookupVisit, setVisit,
      graphChildren, isortLe, insertLe, strLeB, charListLt, cycleMessage, joinWith,
      docTwoCycle, dslVersionLiteral, trimChars, pyStrip]

/-- A document whose definitions contain the two-node cycle `A ↔ B` *and*
a dangling reference (`C.fields.d` → `D`): the reported error is the
dangling-reference message, not the cycle message, because
`_validate_references` scans for unresolved references before running the
cycle DFS. -/
theorem refcycle_dangling_precedence :
    compileContextSchema docCycDangling = .error "Reference not found: D" ∧
    hasRefCycle (docCycDangling.definitions.map fun p => (p.1, collectRefs p.2)) ∧
    ¬ containsStr "Reference not found: D" "Reference cycle detected" := by
  refine ⟨?_, ?_, ?_⟩
  · simp [compileContextSchema, validateRefs, firstNotIn, firstDanglingInDefs,
      collectRefs, collectRefsFields, docCycDangling, dslVersionLiteral, trimChars]
  · have hAB : graphEdge
        (docCycDangling.definitions.map fun p => (p.1, collectRefs p.2)) "A" "B" := by
      simp [graphEdge, graphChildren, collectRefs, collectRefsFields, docCycDangling]
    have hBA : graphEdge
        (docCycDangling.definitions.map fun p => (p.1, collectRefs p.2)) "B" "A" := by
      simp [graphEdge, graphChildren, collectRefs, collectRefsFields, docCycDangling]
    exact ⟨"A", Relation.TransGen.tail (Relation.TransGen.single hAB) hBA⟩
  · rintro ⟨l, r, h⟩
    have h2 := congrArg List.length h
    have e1 : ("Reference not found: D".data).length = 22 := rfl
    have e2 : ("Reference cycle detected".data).length = 24 := rfl
    simp only [List.length_append, e1, e2] at h2
    omega

theorem reference_cycle_detected_witness :
    ∃ path, compileContextSchema docTwoCycle = .error (cycleMessage path) ∧
      containsStr (cycleMessage path) "Reference cycle detected" := by
  have hAB : graphEdge
      (docTwoCycle.definitions.map fun p => (p.1, collectRefs p.2)) "A" "B" := by
    simp [graphEdge, graphChildren, collectRefs, collectRefsFields, docTwoCycle]
  have hBA : graphEdge
      (docTwoCycle.definitions.map fun p => (p.1, collectRefs p.2)) "B" "A" := by
    simp [graphEdge, graphChildren, collectRefs, collectRefsFields, docTwoCycle]
  exact reference_cycle_detected.1 docTwoCycle rfl (by decide) (by decide) (by decide)
    (by decide) ⟨none, false, [("a", true, DNode.scalar "string" false)], false, rfl⟩ rfl
    (by simp [firstNotIn, collectRefs, collectRefsFields, docTwoCycle])
    (by simp [firstDanglingInDefs, firstNotIn, collectRefs, collectRefsFields, docTwoCycle])
    ⟨"A", Relation.TransGen.tail (Relation.TransGen.single hAB) hBA⟩

end Opactx

namespace Opactx

theorem trimChars_eq_self {cs : List Char} (h : ∀ c ∈ cs, c.isWhitespace = false) :
    trimChars cs = cs := by
  have h1 : cs.dropWhile Char.isWhitespace = cs := by
    cases cs with
    | nil => rfl
    | cons c t =>
      rw [List.dropWhile_cons, if_neg]
      simp [h c (by simp)]
  rw [trimChars, h1]
  have h2 : cs.reverse.dropWhile Char.isWhitespace = cs.reverse := by
    cases hr : cs.reverse with
    | nil => rfl
    | cons c t =>
      rw [List.dropWhile_cons, if_neg]
      have hc : c ∈ cs := by
        rw [← List.mem_reverse, hr]
        simp
      simp [h c hc]
  rw [h2, List.reverse_reverse]

theorem digitVal_mod (k : Nat) : digitVal (Char.ofNat (48 + k % 10)) = some (k % 10) := by
  have hb : k % 10 < 10 := Nat.mod_lt _ (by omega)
  generalize hj : k % 10 = j at hb ⊢
  interval_cases j <;> decide

theorem digitChar_not_ws (k : Nat) : (Char.ofNat (48 + k % 10)).isWhitespace = false := by
  have hb : k % 10 < 10 := Nat.mod_lt _ (by omega)
  generalize hj : k % 10 = j at hb ⊢
  interval_cases j <;> decide

theorem digitChar_ne_Z (k : Nat) : Char.ofNat (48 + k % 10) ≠ 'Z' := by
  have hb : k % 10 < 10 := Nat.mod_lt _ (by omega)
  generalize hj : k % 10 = j at hb ⊢
  interval_cases j <;> decide

theorem expectChar_cons_self (c : Char) (rs : List Char) :
    expectChar c (c :: rs) = some rs := by
  rw [expectChar, if_pos rfl]

theorem parse2_pad2 (n : Nat) (h : n ≤ 99) (rest : List Char) :
    parse2 (pad2 n ++ rest) = some (n, rest) := by
  have e : pad2 n ++ rest =
      Char.ofNat (48 + n / 10 % 10) :: Char.ofNat (48 + n % 10) :: rest := rfl
  rw [e, parse2, digitVal_mod (n / 10), digitVal_mod n]
  show some (n / 10 % 10 * 10 + n % 10, rest) = some (n, rest)
  simp only [Option.some.injEq, Prod.mk.injEq, and_true]
  omega

theorem parse4_pad4 (n : Nat) (h : n ≤ 9999) (rest : List Char) :
    parse4 (pad4 n ++ rest) = some (n, rest) := by
  have e : pad4 n ++ rest =
      Char.ofNat (48 + n / 1000 % 10) :: Char.ofNat (48 + n / 100 % 10) ::
      Char.ofNat (48 + n / 10 % 10) :: Char.ofNat (48 + n % 10) :: rest := rfl
  rw [e, parse4, digitVal_mod (n / 1000), digitVal_mod (n / 100), digitVal_mod (n / 10),
    digitVal_mod n]
  show some (((n / 1000 % 10 * 10 + n / 100 % 10) * 10 + n / 10 % 10) * 10 + n % 10, rest)
    = some (n, rest)
  simp only [Option.some.injEq, Prod.mk.injEq, and_true]
  omega

end Opactx

namespace Opactx

theorem daysInMonth_le31 (y m : Nat) : daysInMonth y m ≤ 31 := by
  rw [daysInMonth]
  split
  · split <;> omega
  · split <;> omega

theorem parseDatePart_render (y m d : Nat) (rest : List Char)
    (hy1 : 1 ≤ y) (hy2 : y ≤ 9999) (hm1 : 1 ≤ m) (hm2 : m ≤ 12)
    (hd1 : 1 ≤ d) (hd2 : d ≤ daysInMonth y m) :
    parseDatePart (renderDateChars y m d ++ rest) = some ((y, m, d), rest) := by
  have hdm : daysInMonth y m ≤ 31 := daysInMonth_le31 y m
  have e : renderDateChars y m d ++ rest =
      pad4 y ++ ('-' :: (pad2 m ++ ('-' :: (pad2 d ++ rest)))) := by
    simp [renderDateChars]
  rw [e]
  simp only [parseDatePart, parse4_pad4 y hy2, expectChar_cons_self,
    parse2_pad2 m (by omega), parse2_pad2 d (by omega)]
  rw [if_pos ⟨hy1, hm1, hm2, hd1, hd2⟩]

theorem parseTimePart_render (h mi s : Nat) (rest : List Char)
    (hh : h ≤ 23) (hmi : mi ≤ 59) (hs : s ≤ 59) :
    parseTimePart (renderTimeChars h mi s ++ rest) = some ((h, mi, s), rest) := by
  have e : renderTimeChars h mi s ++ rest =
      pad2 h ++ (':' :: (pad2 mi ++ (':' :: (pad2 s ++ rest)))) := by
    simp [renderTimeChars]
  rw [e]
  simp only [parseTimePart, parse2_pad2 h (by omega), expectChar_cons_self,
    parse2_pad2 mi (by omega), parse2_pad2 s (by omega)]
  rw [if_pos ⟨hh, hmi, hs⟩]

theorem parseOffsetPart_render (neg : Bool) (oh om : Nat)
    (hoh : oh ≤ 23) (hom : om ≤ 59) :
    parseOffsetPart (renderOffsetChars neg oh om) =
      some (some (if neg then -((oh * 60 + om : Nat) : Int)
                  else ((oh * 60 + om : Nat) : Int))) := by
  cases neg with
  | false =>
    have e : renderOffsetChars false oh om =
        '+' :: (pad2 oh ++ (':' :: (pad2 om ++ []))) := by
      simp [renderOffsetChars]
    rw [e, parseOffsetPart]
    rw [if_pos (Or.inl rfl)]
    simp only [parse2_pad2 oh (by omega), expectChar_cons_self, parse2_pad2 om (by omega)]
    simp [hoh, hom]
  | true =>
    have e : renderOffsetChars true oh om =
        '-' :: (pad2 oh ++ (':' :: (pad2 om ++ []))) := by
      simp [renderOffsetChars]
    rw [e, parseOffsetPart]
    rw [if_pos (Or.inr rfl)]
    simp only [parse2_pad2 oh (by omega), expectChar_cons_self, parse2_pad2 om (by omega)]
    simp [hoh, hom]

theorem fromIso_renderDate (y m d : Nat)
    (hy1 : 1 ≤ y) (hy2 : y ≤ 9999) (hm1 : 1 ≤ m) (hm2 : m ≤ 12)
    (hd1 : 1 ≤ d) (hd2 : d ≤ daysInMonth y m) :
    fromIso (renderDateChars y m d) = some ⟨y, m, d, 0, 0, 0, none⟩ := by
  have e : renderDateChars y m d = renderDateChars y m d ++ [] := by simp
  rw [e]
  simp only [fromIso, parseDatePart_render y m d [] hy1 hy2 hm1 hm2 hd1 hd2]

theorem fromIso_renderNaive (y m d h mi s : Nat) (sep : Char)
    (hy1 : 1 ≤ y) (hy2 : y ≤ 9999) (hm1 : 1 ≤ m) (hm2 : m ≤ 12)
    (hd1 : 1 ≤ d) (hd2 : d ≤ daysInMonth y m)
    (hh : h ≤ 23) (hmi : mi ≤ 59) (hs : s ≤ 59) :
    fromIso (renderDateChars y m d ++ sep :: renderTimeChars h mi s) =
      some ⟨y, m, d, h, mi, s, none⟩ := by
  have e : renderTimeChars h mi s = renderTimeChars h mi s ++ [] := by simp
  simp only [fromIso, parseDatePart_render y m d _ hy1 hy2 hm1 hm2 hd1 hd2]
  rw [e]
  simp only [parseTimePart_render h mi s [] hh hmi hs]
  rfl

theorem fromIso_renderOffset (y m d h mi s : Nat) (sep : Char) (neg : Bool) (oh om : Nat)
    (hy1 : 1 ≤ y) (hy2 : y ≤ 9999) (hm1 : 1 ≤ m) (hm2 : m ≤ 12)
    (hd1 : 1 ≤ d) (hd2 : d ≤ daysInMonth y m)
    (hh : h ≤ 23) (hmi : mi ≤ 59) (hs : s ≤ 59)
    (hoh : oh ≤ 23) (hom : om ≤ 59) :
    fromIso (renderDateChars y m d ++ sep ::
        (renderTimeChars h mi s ++ renderOffsetChars neg oh om)) =
      some ⟨y, m, d, h, mi, s,
        some (if neg then -((oh * 60 + om : Nat) : Int)
              else ((oh * 60 + om : Nat) : Int))⟩ := by
  simp only [fromIso, parseDatePart_render y m d _ hy1 hy2 hm1 hm2 hd1 hd2,
    parseTimePart_render h mi s _ hh hmi hs,
    parseOffsetPart_render neg oh om hoh hom]

end Opactx

namespace Opactx

theorem daysBeforeMonth_add (y m : Nat) (h1 : 1 ≤ m) (h2 : m ≤ 11) :
    daysBeforeMonth y (m + 1) = daysBeforeMonth y m + daysInMonth y m := by
  interval_cases m <;>
    cases hL : isLeap y <;>
      simp [daysBeforeMonth, daysInMonth, hL]

theorem daysBeforeYear_succ (y : Nat) (h : 1 ≤ y) :
    daysBeforeYear (y + 1) =
      daysBeforeYear y + 365 + (if isLeap y then 1 else 0) := by
  have hiff : (isLeap y = true) ↔ (y % 4 = 0 ∧ (y % 100 ≠ 0 ∨ y % 400 = 0)) := by
    simp [isLeap]
  have hm4 : y % 100 % 4 = y % 4 := Nat.mod_mod_of_dvd y (by norm_num)
  have hm4b : y % 400 % 4 = y % 4 := Nat.mod_mod_of_dvd y (by norm_num)
  have hm100 : y % 400 % 100 = y % 100 := Nat.mod_mod_of_dvd y (by norm_num)
  have s4 : (y % 4 = 0 → y / 4 = (y - 1) / 4 + 1) ∧
      (y % 4 ≠ 0 → y / 4 = (y - 1) / 4) := by
    constructor <;> intro hx <;> omega
  have s100 : (y % 100 = 0 → y / 100 = (y - 1) / 100 + 1) ∧
      (y % 100 ≠ 0 → y / 100 = (y - 1) / 100) := by
    constructor <;> intro hx <;> omega
  have s400 : (y % 400 = 0 → y / 400 = (y - 1) / 400 + 1) ∧
      (y % 400 ≠ 0 → y / 400 = (y - 1) / 400) := by
    constructor <;> intro hx <;> omega
  cases hL : isLeap y
  · rw [hL] at hiff
    simp only [Bool.false_eq_true, false_iff] at hiff
    simp only [daysBeforeYear, hL, Bool.false_eq_true, if_false, Nat.add_sub_cancel]
    by_cases h4 : y % 4 = 0
    · by_cases h100 : y % 100 = 0
      · by_cases h400 : y % 400 = 0
        · exact absurd ⟨h4, Or.inr h400⟩ hiff
        · rw [s4.1 h4, s100.1 h100, s400.2 h400]
          omega
      · exact absurd ⟨h4, Or.inl h100⟩ hiff
    · have h100f : y % 100 ≠ 0 := by omega
      have h400f : y % 400 ≠ 0 := by omega
      rw [s4.2 h4, s100.2 h100f, s400.2 h400f]
      omega
  · rw [hL] at hiff
    simp only [true_iff] at hiff
    simp only [daysBeforeYear, hL, if_true, Nat.add_sub_cancel]
    obtain ⟨h4, h1or⟩ := hiff
    rcases h1or with h100 | h400
    · have h400f : y % 400 ≠ 0 := by omega
      rw [s4.1 h4, s100.2 h100, s400.2 h400f]
      omega
    · have h100t : y % 100 = 0 := by omega
      rw [s4.1 h4, s100.1 h100t, s400.1 h400]
      omega

theorem toOrdinal_nextDay (y m d : Nat)
    (hy1 : 1 ≤ y) (hm1 : 1 ≤ m) (hm2 : m ≤ 12) (hd1 : 1 ≤ d)
    (hd2 : d ≤ daysInMonth y m) :
    toOrdinal (nextDay y m d).1 (nextDay y m d).2.1 (nextDay y m d).2.2 =
      toOrdinal y m d + 1 := by
  rw [nextDay]
  by_cases hc1 : d < daysInMonth y m
  · rw [if_pos hc1]
    simp only [toOrdinal]
    omega
  · rw [if_neg hc1]
    have hde : d = daysInMonth y m := by omega
    by_cases hc2 : m < 12
    · rw [if_pos hc2]
      show toOrdinal y (m + 1) 1 = toOrdinal y m d + 1
      rw [toOrdinal, toOrdinal, daysBeforeMonth_add y m hm1 (by omega), hde]
      omega
    · rw [if_neg hc2]
      have hme : m = 12 := by omega
      subst hme
      have hdim : daysInMonth y 12 = 31 := by simp [daysInMonth]
      show toOrdinal (y + 1) 1 1 = toOrdinal y 12 d + 1
      rw [hde, hdim]
      rw [toOrdinal, toOrdinal, daysBeforeYear_succ y hy1]
      cases hL : isLeap y <;> simp [daysBeforeMonth, hL] <;> omega

theorem toOrdinal_prevDay (y m d : Nat)
    (hy1 : 2 ≤ y) (hm1 : 1 ≤ m) (hm2 : m ≤ 12) (hd1 : 1 ≤ d) :
    toOrdinal (prevDay y m d).1 (prevDay y m d).2.1 (prevDay y m d).2.2 + 1 =
      toOrdinal y m d := by
  rw [prevDay]
  by_cases hc1 : 1 < d
  · rw [if_pos hc1]
    simp [toOrdinal]
    omega
  · rw [if_neg hc1]
    have hde : d = 1 := by omega
    subst hde
    by_cases hc2 : 1 < m
    · rw [if_pos hc2]
      show toOrdinal y (m - 1) (daysInMonth y (m - 1)) + 1 = toOrdinal y m 1
      have hm : m - 1 + 1 = m := by omega
      rw [toOrdinal, toOrdinal]
      conv_rhs => rw [← hm]
      rw [daysBeforeMonth_add y (m - 1) (by omega) (by omega)]
      omega
    · rw [if_neg hc2]
      have hme : m = 1 := by omega
      subst hme
      show toOrdinal (y - 1) 12 31 + 1 = toOrdinal y 1 1
      rw [toOrdinal, toOrdinal]
      have hy : y - 1 + 1 = y := by omega
      have hsucc := daysBeforeYear_succ (y - 1) (by omega)
      rw [hy] at hsucc
      rw [hsucc]
      cases hL : isLeap (y - 1) <;> simp [daysBeforeMonth, hL] <;> omega

end Opactx

namespace Opactx

theorem toUtc_zero (y m d h mi s : Nat) (hh : h ≤ 23) (hmi : mi ≤ 59) (hs : s ≤ 59) :
    toUtc ⟨y, m, d, h, mi, s, some 0⟩ = ⟨y, m, d, h, mi, s, some 0⟩ := by
  rw [toUtc]
  simp only
  rw [if_neg (by omega), if_pos (by omega)]
  simp only [mkUtc]
  have e : ((h * 3600 + mi * 60 + s : Nat) : Int) - 0 * 60 = (h * 3600 + mi * 60 + s : Nat) := by
    omega
  rw [e, Int.toNat_natCast]
  simp only [DT.mk.injEq]
  simp only [eq_self_iff_true, true_and, and_true]
  omega

theorem toUtc_offset (y m d h mi s : Nat) (off : Int)
    (hy1 : 2 ≤ y) (hy2 : y ≤ 9998) (hm1 : 1 ≤ m) (hm2 : m ≤ 12)
    (hd1 : 1 ≤ d) (hd2 : d ≤ daysInMonth y m)
    (hh : h ≤ 23) (hmi : mi ≤ 59) (hs : s ≤ 59)
    (ho1 : -1440 < off) (ho2 : off < 1440) :
    (toUtc ⟨y, m, d, h, mi, s, some off⟩).offset = some 0 ∧
    ((toOrdinal (toUtc ⟨y, m, d, h, mi, s, some off⟩).year
        (toUtc ⟨y, m, d, h, mi, s, some off⟩).month
        (toUtc ⟨y, m, d, h, mi, s, some off⟩).day : Int) * 86400
      + (toUtc ⟨y, m, d, h, mi, s, some off⟩).hour * 3600
      + (toUtc ⟨y, m, d, h, mi, s, some off⟩).minute * 60
      + (toUtc ⟨y, m, d, h, mi, s, some off⟩).second)
    = (toOrdinal y m d : Int) * 86400 + h * 3600 + mi * 60 + s - off * 60 := by
  have hprev := toOrdinal_prevDay y m d hy1 hm1 hm2 hd1
  have hnext := toOrdinal_nextDay y m d (by omega) hm1 hm2 hd1 hd2
  have hpeta : prevDay y m d =
      ((prevDay y m d).1, (prevDay y m d).2.1, (prevDay y m d).2.2) := rfl
  have hneta : nextDay y m d =
      ((nextDay y m d).1, (nextDay y m d).2.1, (nextDay y m d).2.2) := rfl
  rw [toUtc]
  simp only
  by_cases hc1 : ((h * 3600 + mi * 60 + s : Nat) : Int) - off * 60 < 0
  · rw [if_pos hc1, hpeta]
    simp only [mkUtc]
    refine ⟨trivial, ?_⟩
    omega
  · rw [if_neg hc1]
    by_cases hc2 : ((h * 3600 + mi * 60 + s : Nat) : Int) - off * 60 < 86400
    · rw [if_pos hc2]
      simp only [mkUtc]
      refine ⟨trivial, ?_⟩
      omega
    · rw [if_neg hc2, hneta]
      simp only [mkUtc]
      refine ⟨trivial, ?_⟩
      omega

end Opactx

namespace Opactx

theorem renderDate_not_ws (y m d : Nat) :
    ∀ c ∈ renderDateChars y m d, c.isWhitespace = false := by
  intro c hc
  simp [renderDateChars, pad4, pad2] at hc
  rcases hc with h | h | h | h | h | h | h | h | h | h <;> subst h <;>
    first
      | exact digitChar_not_ws _
      | decide

theorem renderTime_not_ws (h mi s : Nat) :
    ∀ c ∈ renderTimeChars h mi s, c.isWhitespace = false := by
  intro c hc
  simp [renderTimeChars, pad2] at hc
  rcases hc with h | h | h | h | h | h | h | h <;> subst h <;>
    first
      | exact digitChar_not_ws _
      | decide

theorem renderOffset_not_ws (neg : Bool) (oh om : Nat) :
    ∀ c ∈ renderOffsetChars neg oh om, c.isWhitespace = false := by
  intro c hc
  simp [renderOffsetChars, pad2] at hc
  rcases hc with h | h | h | h | h | h <;> subst h <;>
    first
      | exact digitChar_not_ws _
      | cases neg <;> decide

theorem renderDate_length (y m d : Nat) : (renderDateChars y m d).length = 10 := by
  simp [renderDateChars, pad4, pad2]

theorem renderTime_length (h mi s : Nat) : (renderTimeChars h mi s).length = 8 := by
  simp [renderTimeChars, pad2]

theorem renderDate_get4 (y m d : Nat) : (renderDateChars y m d).get? 4 = some '-' := rfl

theorem renderDate_get7 (y m d : Nat) : (renderDateChars y m d).get? 7 = some '-' := rfl

theorem renderCanonical_assoc (y m d h mi s : Nat) :
    renderCanonicalChars y m d h mi s =
      (renderDateChars y m d ++ 'T' :: renderTimeChars h mi s) ++ ['Z'] := by
  simp [renderCanonicalChars]

theorem renderCanonical_getLast (y m d h mi s : Nat) :
    (renderCanonicalChars y m d h mi s).getLast? = some 'Z' := by
  rw [renderCanonical_assoc, List.getLast?_concat]

theorem renderCanonical_dropLast (y m d h mi s : Nat) :
    (renderCanonicalChars y m d h mi s).dropLast =
      renderDateChars y m d ++ 'T' :: renderTimeChars h mi s := by
  rw [renderCanonical_assoc, List.dropLast_concat]

theorem renderNaive_assoc (y m d h mi s : Nat) (sep : Char) :
    renderDateChars y m d ++ sep :: renderTimeChars h mi s =
      (renderDateChars y m d ++ sep :: (pad2 h ++ ':' :: pad2 mi ++ [':',
        Char.ofNat (48 + s / 10 % 10)])) ++ [Char.ofNat (48 + s % 10)] := by
  simp [renderTimeChars, pad2]

theorem renderNaive_getLast (y m d h mi s : Nat) (sep : Char) :
    (renderDateChars y m d ++ sep :: renderTimeChars h mi s).getLast? =
      some (Char.ofNat (48 + s % 10)) := by
  rw [renderNaive_assoc, List.getLast?_concat]

theorem renderOffsetStr_assoc (y m d h mi s : Nat) (sep : Char) (neg : Bool) (oh om : Nat) :
    renderDateChars y m d ++ sep :: (renderTimeChars h mi s ++ renderOffsetChars neg oh om) =
      (renderDateChars y m d ++ sep :: (renderTimeChars h mi s ++
        (if neg then '-' else '+') :: (pad2 oh ++ [':', Char.ofNat (48 + om / 10 % 10)])))
      ++ [Char.ofNat (48 + om % 10)] := by
  simp [renderOffsetChars, pad2]

theorem renderOffsetStr_getLast (y m d h mi s : Nat) (sep : Char) (neg : Bool) (oh om : Nat) :
    (renderDateChars y m d ++ sep ::
        (renderTimeChars h mi s ++ renderOffsetChars neg oh om)).getLast? =
      some (Char.ofNat (48 + om % 10)) := by
  rw [renderOffsetStr_assoc, List.getLast?_concat]

end Opactx

namespace Opactx

theorem toRfc3339_date (y m d : Nat)
    (hy1 : 1 ≤ y) (hy2 : y ≤ 9999) (hm1 : 1 ≤ m) (hm2 : m ≤ 12)
    (hd1 : 1 ≤ d) (hd2 : d ≤ daysInMonth y m) :
    toRfc3339 (.str ⟨renderDateChars y m d⟩) =
      .ok ⟨renderCanonicalChars y m d 0 0 0⟩ := by
  have htrim : trimChars (renderDateChars y m d) = renderDateChars y m d :=
    trimChars_eq_self (renderDate_not_ws y m d)
  simp only [toRfc3339, htrim, renderDate_length, renderDate_get4, renderDate_get7,
    fromIso_renderDate y m d hy1 hy2 hm1 hm2 hd1 hd2, and_self, if_true]

theorem toUtc_naive (y m d h mi s : Nat) :
    toUtc ⟨y, m, d, h, mi, s, none⟩ = ⟨y, m, d, h, mi, s, some 0⟩ := rfl

theorem toRfc3339_naive (y m d h mi s : Nat) (sep : Char)
    (hy1 : 1 ≤ y) (hy2 : y ≤ 9999) (hm1 : 1 ≤ m) (hm2 : m ≤ 12)
    (hd1 : 1 ≤ d) (hd2 : d ≤ daysInMonth y m)
    (hh : h ≤ 23) (hmi : mi ≤ 59) (hs : s ≤ 59)
    (hsep : sep.isWhitespace = false) :
    toRfc3339 (.str ⟨renderDateChars y m d ++ sep :: renderTimeChars h mi s⟩) =
      .ok ⟨renderCanonicalChars y m d h mi s⟩ := by
  have hnws : ∀ c ∈ renderDateChars y m d ++ sep :: renderTimeChars h mi s,
      c.isWhitespace = false := by
    intro c hc
    rcases List.mem_append.mp hc with hc' | hc'
    · exact renderDate_not_ws y m d c hc'
    · rcases List.mem_cons.mp hc' with rfl | hc''
      · exact hsep
      · exact renderTime_not_ws h mi s c hc''
  have htrim : trimChars (renderDateChars y m d ++ sep :: renderTimeChars h mi s) =
      renderDateChars y m d ++ sep :: renderTimeChars h mi s :=
    trimChars_eq_self hnws
  have hlen : (renderDateChars y m d ++ sep :: renderTimeChars h mi s).length = 19 := by
    simp [renderDate_length, renderTime_length]
  have hne : ¬((renderDateChars y m d ++ sep :: renderTimeChars h mi s).length = 10 ∧
      (renderDateChars y m d ++ sep :: renderTimeChars h mi s).get? 4 = some '-' ∧
      (renderDateChars y m d ++ sep :: renderTimeChars h mi s).get? 7 = some '-') := by
    intro hx
    rw [hlen] at hx
    exact absurd hx.1 (by omega)
  have hz : ¬((renderDateChars y m d ++ sep :: renderTimeChars h mi s).getLast?
      = some 'Z') := by
    rw [renderNaive_getLast]
    intro hx
    exact digitChar_ne_Z s (Option.some.inj hx)
  simp only [toRfc3339, htrim]
  rw [if_neg hne, if_neg hz]
  rw [fromIso_renderNaive y m d h mi s sep hy1 hy2 hm1 hm2 hd1 hd2 hh hmi hs]
  simp only [toUtc_naive]

theorem p0000_eq : ("+00:00".data) = renderOffsetChars false 0 0 := rfl

theorem toRfc3339_canonical (y m d h mi s : Nat)
    (hy1 : 1 ≤ y) (hy2 : y ≤ 9999) (hm1 : 1 ≤ m) (hm2 : m ≤ 12)
    (hd1 : 1 ≤ d) (hd2 : d ≤ daysInMonth y m)
    (hh : h ≤ 23) (hmi : mi ≤ 59) (hs : s ≤ 59) :
    toRfc3339 (.str ⟨renderCanonicalChars y m d h mi s⟩) =
      .ok ⟨renderCanonicalChars y m d h mi s⟩ := by
  have hnws : ∀ c ∈ renderCanonicalChars y m d h mi s, c.isWhitespace = false := by
    intro c hc
    rw [renderCanonical_assoc] at hc
    rcases List.mem_append.mp hc with hc' | hc'
    · rcases List.mem_append.mp hc' with hc'' | hc''
      · exact renderDate_not_ws y m d c hc''
      · rcases List.mem_cons.mp hc'' with rfl | hc'''
        · decide
        · exact renderTime_not_ws h mi s c hc'''
    · rcases List.mem_singleton.mp hc' with rfl
      decide
  have htrim : trimChars (renderCanonicalChars y m d h mi s) =
      renderCanonicalChars y m d h mi s := trimChars_eq_self hnws
  have hlen : (renderCanonicalChars y m d h mi s).length = 20 := by
    rw [renderCanonical_assoc]
    simp [renderDate_length, renderTime_length]
  have hne : ¬((renderCanonicalChars y m d h mi s).length = 10 ∧
      (renderCanonicalChars y m d h mi s).get? 4 = some '-' ∧
      (renderCanonicalChars y m d h mi s).get? 7 = some '-') := by
    intro hx
    rw [hlen] at hx
    exact absurd hx.1 (by omega)
  have hfrom : fromIso ((renderCanonicalChars y m d h mi s).dropLast ++ "+00:00".data)
      = some ⟨y, m, d, h, mi, s, some 0⟩ := by
    rw [renderCanonical_dropLast, p0000_eq]
    have e : renderDateChars y m d ++ 'T' :: renderTimeChars h mi s
        ++ renderOffsetChars false 0 0 =
        renderDateChars y m d ++ 'T' ::
          (renderTimeChars h mi s ++ renderOffsetChars false 0 0) := by
      simp
    rw [e, fromIso_renderOffset y m d h mi s 'T' false 0 0 hy1 hy2 hm1 hm2 hd1 hd2
      hh hmi hs (by omega) (by omega)]
    norm_num
  simp only [toRfc3339, htrim]
  rw [if_neg hne, if_pos (renderCanonical_getLast y m d h mi s), hfrom]
  simp only [toUtc_zero y m d h mi s hh hmi hs]

theorem toRfc3339_offset (y m d h mi s : Nat) (sep : Char) (neg : Bool) (oh om : Nat)
    (hy1 : 2 ≤ y) (hy2 : y ≤ 9998) (hm1 : 1 ≤ m) (hm2 : m ≤ 12)
    (hd1 : 1 ≤ d) (hd2 : d ≤ daysInMonth y m)
    (hh : h ≤ 23) (hmi : mi ≤ 59) (hs : s ≤ 59)
    (hoh : oh ≤ 23) (hom : om ≤ 59) (hsep : sep.isWhitespace = false) :
    ∃ y' m' d' h' mi' s',
      toRfc3339 (.str ⟨renderDateChars y m d ++ sep ::
          (renderTimeChars h mi s ++ renderOffsetChars neg oh om)⟩) =
        .ok ⟨renderCanonicalChars y' m' d' h' mi' s'⟩ ∧
      ((toOrdinal y' m' d' : Int) * 86400 + h' * 3600 + mi' * 60 + s')
        = (toOrdinal y m d : Int) * 86400 + h * 3600 + mi * 60 + s
          - (if neg then -((oh * 60 + om : Nat) : Int)
             else ((oh * 60 + om : Nat) : Int)) * 60 := by
  have hnws : ∀ c ∈ renderDateChars y m d ++ sep ::
      (renderTimeChars h mi s ++ renderOffsetChars neg oh om), c.isWhitespace = false := by
    intro c hc
    rcases List.mem_append.mp hc with hc' | hc'
    · exact renderDate_not_ws y m d c hc'
    · rcases List.mem_cons.mp hc' with rfl | hc''
      · exact hsep
      · rcases List.mem_append.mp hc'' with hc''' | hc'''
        · exact renderTime_not_ws h mi s c hc'''
        · exact renderOffset_not_ws neg oh om c hc'''
  have htrim := trimChars_eq_self hnws
  have hlen : (renderDateChars y m d ++ sep ::
      (renderTimeChars h mi s ++ renderOffsetChars neg oh om)).length = 25 := by
    cases neg <;> simp [renderDate_length, renderTime_length, renderOffsetChars, pad2]
  have hne : ¬((renderDateChars y m d ++ sep ::
      (renderTimeChars h mi s ++ renderOffsetChars neg oh om)).length = 10 ∧
      (renderDateChars y m d ++ sep ::
        (renderTimeChars h mi s ++ renderOffsetChars neg oh om)).get? 4 = some '-' ∧
      (renderDateChars y m d ++ sep ::
        (renderTimeChars h mi s ++ renderOffsetChars neg oh om)).get? 7 = some '-') := by
    intro hx
    rw [hlen] at hx
    exact absurd hx.1 (by omega)
  have hz : ¬((renderDateChars y m d ++ sep ::
      (renderTimeChars h mi s ++ renderOffsetChars neg oh om)).getLast? = some 'Z') := by
    rw [renderOffsetStr_getLast]
    intro hx
    exact digitChar_ne_Z om (Option.some.inj hx)
  have hoff := toUtc_offset y m d h mi s
    (if neg then -((oh * 60 + om : Nat) : Int) else ((oh * 60 + om : Nat) : Int))
    hy1 hy2 hm1 hm2 hd1 hd2 hh hmi hs
    (by cases neg <;> simp <;> omega) (by cases neg <;> simp <;> omega)
  refine ⟨_, _, _, _, _, _, ?_, hoff.2⟩
  simp only [toRfc3339, htrim]
  rw [if_neg hne, if_neg hz]
  rw [fromIso_renderOffset y m d h mi s sep neg oh om (by omega) (by omega) hm1 hm2 hd1 hd2
    hh hmi hs hoh hom]

end Opactx

namespace Opactx

theorem coerceValue_timestamp (v : Json) :
    coerceValue v "timestamp" = (toRfc3339 v).map Json.str := rfl

theorem toRfc3339_ok_endsZ (v : Json) (r : String) (h : toRfc3339 v = .ok r) :
    ∃ cs, r.data = cs ++ ['Z'] := by
  cases v with
  | str s =>
    rw [toRfc3339] at h
    split at h
    · split at h
      · next dt heq =>
        simp only [Except.ok.injEq] at h
        subst h
        exact ⟨_, renderCanonical_assoc _ _ _ _ _ _⟩
      · exact absurd h (by simp)
    · split at h
      · next dt heq =>
        simp only [Except.ok.injEq] at h
        subst h
        exact ⟨_, renderCanonical_assoc _ _ _ _ _ _⟩
      · exact absurd h (by simp)
  | null => simp [toRfc3339] at h
  | bool b => simp [toRfc3339] at h
  | int n => simp [toRfc3339] at h
  | float q => simp [toRfc3339] at h
  | arr xs => simp [toRfc3339] at h
  | obj kvs => simp [toRfc3339] at h

theorem toRfc3339_nonstr (v : Json) (hns : ∀ s, v ≠ .str s) :
    ∃ e, toRfc3339 v = .error e := by
  cases v with
  | str s => exact absurd rfl (hns s)
  | null => exact ⟨_, rfl⟩
  | bool b => exact ⟨_, rfl⟩
  | int n => exact ⟨_, rfl⟩
  | float q => exact ⟨_, rfl⟩
  | arr xs => exact ⟨_, rfl⟩
  | obj kvs => exact ⟨_, rfl⟩

end Opactx

namespace Opactx

/-- C6: a `coerce` rule of type `timestamp` (i) turns a bare `YYYY-MM-DD`
date into `YYYY-MM-DDT00:00:00Z` (UTC midnight), (ii) leaves a canonical
trailing-`Z` datetime unchanged, (iii) assumes a naive datetime is UTC and
only appends the `Z`, (iv) converts a `±HH:MM` offset-bearing datetime to
UTC — the emitted instant equals the input instant (epoch-second identity
over the proleptic Gregorian ordinal, offsets excluded from the first and
last supported year so the single-day carry stays in range), (v) only
emits strings ending in `Z`, (vi) rejects every non-string value, and
(vii) rejects unparseable strings such as a month of 13 or a non-date. -/
theorem timestamp_coercion_spec :
    (∀ y m d : Nat, 1 ≤ y → y ≤ 9999 → 1 ≤ m → m ≤ 12 → 1 ≤ d → d ≤ daysInMonth y m →
      coerceValue (.str ⟨renderDateChars y m d⟩) "timestamp" =
        .ok (.str ⟨renderDateChars y m d ++ 'T' :: (renderTimeChars 0 0 0 ++ ['Z'])⟩)) ∧
    (∀ y m d h mi s : Nat, 1 ≤ y → y ≤ 9999 → 1 ≤ m → m ≤ 12 → 1 ≤ d →
      d ≤ daysInMonth y m → h ≤ 23 → mi ≤ 59 → s ≤ 59 →
      coerceValue (.str ⟨renderCanonicalChars y m d h mi s⟩) "timestamp" =
        .ok (.str ⟨renderCanonicalChars y m d h mi s⟩)) ∧
    (∀ y m d h mi s : Nat, 1 ≤ y → y ≤ 9999 → 1 ≤ m → m ≤ 12 → 1 ≤ d →
      d ≤ daysInMonth y m → h ≤ 23 → mi ≤ 59 → s ≤ 59 →
      coerceValue (.str ⟨renderDateChars y m d ++ 'T' :: renderTimeChars h mi s⟩)
          "timestamp" =
        .ok (.str ⟨renderCanonicalChars y m d h mi s⟩)) ∧
    (∀ (y m d h mi s : Nat) (neg : Bool) (oh om : Nat),
      2 ≤ y → y ≤ 9998 → 1 ≤ m → m ≤ 12 → 1 ≤ d → d ≤ daysInMonth y m →
      h ≤ 23 → mi ≤ 59 → s ≤ 59 → oh ≤ 23 → om ≤ 59 →
      ∃ y' m' d' h' mi' s',
        coerceValue (.str ⟨renderDateChars y m d ++ 'T' ::
            (renderTimeChars h mi s ++ renderOffsetChars neg oh om)⟩) "timestamp" =
          .ok (.str ⟨renderCanonicalChars y' m' d' h' mi' s'⟩) ∧
        ((toOrdinal y' m' d' : Int) * 86400 + h' * 3600 + mi' * 60 + s')
          = (toOrdinal y m d : Int) * 86400 + h * 3600 + mi * 60 + s
            - (if neg then -((oh * 60 + om : Nat) : Int)
               else ((oh * 60 + om : Nat) : Int)) * 60) ∧
    (∀ v j, coerceValue v "timestamp" = .ok j →
      ∃ p cs, j = .str p ∧ p.data = cs ++ ['Z']) ∧
    (∀ v : Json, (∀ s, v ≠ .str s) → ∃ e, coerceValue v "timestamp" = .error e) ∧
    (∃ e, coerceValue (.str "2026-13-01") "timestamp" = .error e) ∧
    (∃ e, coerceValue (.str "not-a-date") "timestamp" = .error e) := by
  refine ⟨?_, ?_, ?_, ?_, ?_, ?_, ⟨_, rfl⟩, ⟨_, rfl⟩⟩
  · intro y m d hy1 hy2 hm1 hm2 hd1 hd2
    rw [coerceValue_timestamp, toRfc3339_date y m d hy1 hy2 hm1 hm2 hd1 hd2]
    rfl
  · intro y m d h mi s hy1 hy2 hm1 hm2 hd1 hd2 hh hmi hs
    rw [coerceValue_timestamp, toRfc3339_canonical y m d h mi s hy1 hy2 hm1 hm2 hd1 hd2
      hh hmi hs]
    rfl
  · intro y m d h mi s hy1 hy2 hm1 hm2 hd1 hd2 hh hmi hs
    rw [coerceValue_timestamp, toRfc3339_naive y m d h mi s 'T' hy1 hy2 hm1 hm2 hd1 hd2
      hh hmi hs (by decide)]
    rfl
  · intro y m d h mi s neg oh om hy1 hy2 hm1 hm2 hd1 hd2 hh hmi hs hoh hom
    obtain ⟨y', m', d', h', mi', s', hok, hep⟩ :=
      toRfc3339_offset y m d h mi s 'T' neg oh om hy1 hy2 hm1 hm2 hd1 hd2 hh hmi hs
        hoh hom (by decide)
    refine ⟨y', m', d', h', mi', s', ?_, hep⟩
    rw [coerceValue_timestamp, hok]
    rfl
  · intro v j h
    rw [coerceValue_timestamp] at h
    cases htr : toRfc3339 v with
    | error e => rw [htr] at h; exact absurd h (by simp [Except.map])
    | ok r =>
      rw [htr] at h
      simp only [Except.map, Except.ok.injEq] at h
      obtain ⟨cs, hcs⟩ := toRfc3339_ok_endsZ v r htr
      exact ⟨r, cs, h.symm, hcs⟩
  · intro v hns
    obtain ⟨e, he⟩ := toRfc3339_nonstr v hns
    exact ⟨e, by rw [coerceValue_timestamp, he]; rfl⟩

theorem timestamp_coercion_spec_witness :
    coerceValue (.str "2026-01-01") "timestamp" = .ok (.str "2026-01-01T00:00:00Z") ∧
    coerceValue (.str "2026-01-01T03:00:00") "timestamp" =
      .ok (.str "2026-01-01T03:00:00Z") := by
  constructor
  · have h := timestamp_coercion_spec.1 2026 1 1 (by omega) (by omega) (by omega)
      (by omega) (by omega) (by decide)
    exact h
  · have h := timestamp_coercion_spec.2.2.1 2026 1 1 3 0 0 (by omega) (by omega)
      (by omega) (by omega) (by omega) (by decide) (by omega) (by omega) (by omega)
    exact h

end Opactx
